import Mathlib

/-!
TCLAP `StdOutput`: usage rendering and word wrapping.

A shallow embedding of `include/tclap/StdOutput.h`.

Modelling conventions.

* A `std::string` is a `List Char`; an output stream is the list of the
  characters written to it so far, and `os << x` appends.
* C++ `int` values are `Int`; string lengths are assumed to fit in an `int`,
  so no arithmetic wraps.
* Reading `s[i]` outside `0 ≤ i ≤ s.size()` is undefined behaviour in C++; the
  embedding returns `none` there, and every function that may perform such a
  read is `Option`-valued.
* The `while (start < len)` loop of `spacePrint` need not terminate, so it is
  modelled with a fuel argument that bounds the number of iterations; `none`
  is returned when the fuel is exhausted.
-/

namespace TCLAP

/-! ## Strings -/

/-- Text of a `std::string`. -/
abbrev Str := List Char

/-- The read `s[i]` on a `const std::string&`.  Index `s.size()` is allowed and
yields the NUL character; any other index outside the string is undefined. -/
def strAt (s : Str) (i : Int) : Option Char :=
  if i < 0 then none
  else if i.toNat < s.length then s[i.toNat]?
  else if i.toNat = s.length then some (Char.ofNat 0)
  else none

/-- The call `s.substr(pos, count)` with `int` arguments.  A position outside
`0 .. s.size()` throws (modelled as `none`); a negative `count` converts to a
huge `size_t` and therefore selects the rest of the string. -/
def substr (s : Str) (pos count : Int) : Option Str :=
  if pos < 0 ∨ pos > (s.length : Int) then none
  else if count < 0 then some (s.drop pos.toNat)
  else some ((s.drop pos.toNat).take count.toNat)

/-- The characters at which `spacePrint` is willing to break a line. -/
def isBreakChar (c : Char) : Bool :=
  c == ' ' || c == ',' || c == '|'

/-! ## `StdOutput::spacePrint` -/

/-- One emitted line: the number of indent spaces written by the indent loop
and the text written after them (the `substr`), followed by `std::endl`. -/
structure Line where
  indent : Nat
  content : Str
deriving DecidableEq

/-- The mutable locals of the wrapping loop. -/
structure WrapState where
  start : Int
  indentSpaces : Int
  allowedLen : Int
deriving DecidableEq

/-- The loop
`while (stringLen >= 0 && s[stringLen+start] is not ' ', ',' or '|') stringLen--;`
The argument `n + 1` stands for `stringLen = n` and `0` for `stringLen = -1`. -/
def trimLoop (s : Str) (start : Int) : Nat → Option Int
  | 0 => some (-1)
  | n + 1 =>
    match strAt s ((n : Int) + start) with
    | none => none
    | some c => if isBreakChar c then some (n : Int) else trimLoop s start n

/-- The loop
`for (int i = 0; i < stringLen; i++) if (s[start+i] == '\n') stringLen = i+1;`
The first argument bounds the remaining iterations (it is started at
`stringLen`, which the loop never increases). -/
def newlineLoop (s : Str) (start : Int) : Nat → Int → Int → Option Int
  | 0, _, stringLen => some stringLen
  | k + 1, i, stringLen =>
    if i < stringLen then
      match strAt s (start + i) with
      | none => none
      | some c => newlineLoop s start k (i + 1) (if c = '\n' then i + 1 else stringLen)
    else some stringLen

/-- The loop `while (s[stringLen+start] == ' ' && start < len) start++;`
returning the final `start`.  The first argument bounds the remaining
increments (it is started at `len - start`). -/
def skipSpaces (s : Str) (stringLen : Int) : Nat → Int → Option Int
  | 0, start =>
    match strAt s (stringLen + start) with
    | none => none
    | some _ => some start
  | k + 1, start =>
    match strAt s (stringLen + start) with
    | none => none
    | some c =>
      if c = ' ' ∧ start < (s.length : Int) then skipSpaces s stringLen k (start + 1)
      else some start

/-- The choice of `stringLen` before the newline scan: the minimum of the
remaining length and `allowedLen`, trimmed back to a break character when the
line would be full, and reset to `allowedLen` when the trimming leaves nothing. -/
def chooseLen (s : Str) (start allowedLen : Int) : Option Int :=
  let len : Int := s.length
  let stringLen0 : Int := min (len - start) allowedLen
  (if stringLen0 = allowedLen then
      (if stringLen0 < 0 then some stringLen0 else trimLoop s start (stringLen0.toNat + 1))
    else some stringLen0).map fun stringLen1 =>
  if stringLen1 ≤ 0 then allowedLen else stringLen1

/-- One iteration of the body of `while (start < len)` in `spacePrint`: the
line it writes and the locals after it. -/
def spacePrintIter (s : Str) (secondLineOffset : Int) (st : WrapState) :
    Option (Line × WrapState) :=
  let len : Int := s.length
  (chooseLen s st.start st.allowedLen).bind fun stringLen2 =>
  (newlineLoop s st.start stringLen2.toNat 0 stringLen2).bind fun stringLen =>
  let indent : Nat := st.indentSpaces.toNat
  let indentSpaces1 : Int :=
    if st.start = 0 then st.indentSpaces + secondLineOffset else st.indentSpaces
  let allowedLen1 : Int :=
    if st.start = 0 then st.allowedLen - secondLineOffset else st.allowedLen
  (substr s st.start stringLen).bind fun content =>
  (skipSpaces s stringLen (len - st.start).toNat st.start).bind fun start1 =>
  some (⟨indent, content⟩, ⟨start1 + stringLen, indentSpaces1, allowedLen1⟩)

/-- The loop `while (start < len) { ... }` of `spacePrint`, run for at most
`fuel` iterations; the lines written, in order. -/
def spacePrintLoop (s : Str) (secondLineOffset : Int) : Nat → WrapState → Option (List Line)
  | 0, st => if st.start < (s.length : Int) then none else some []
  | fuel + 1, st =>
    if st.start < (s.length : Int) then
      (spacePrintIter s secondLineOffset st).bind fun r =>
      (spacePrintLoop s secondLineOffset fuel r.2).bind fun rest =>
      some (r.1 :: rest)
    else some []

/-- The lines `spacePrint(os, s, maxWidth, indentSpaces, secondLineOffset)`
writes, in order. -/
def spacePrintLines (fuel : Nat) (s : Str) (maxWidth indentSpaces secondLineOffset : Int) :
    Option (List Line) :=
  if (s.length : Int) + indentSpaces > maxWidth ∧ maxWidth > 0 then
    spacePrintLoop s secondLineOffset fuel ⟨0, indentSpaces, maxWidth - indentSpaces⟩
  else some [⟨indentSpaces.toNat, s⟩]

/-- Characters a line puts on the stream: indent, text, `std::endl`. -/
def Line.render (l : Line) : Str :=
  List.replicate l.indent ' ' ++ l.content ++ ['\n']

/-- Characters a sequence of lines puts on the stream. -/
def renderLines (ls : List Line) : Str :=
  (ls.map Line.render).flatten

/-- The stream after `spacePrint(os, s, maxWidth, indentSpaces, secondLineOffset)`. -/
def spacePrint (fuel : Nat) (os : Str) (s : Str) (maxWidth indentSpaces secondLineOffset : Int) :
    Option Str :=
  (spacePrintLines fuel s maxWidth indentSpaces secondLineOffset).map fun ls =>
    os ++ renderLines ls

/-! ## The collaborators of `StdOutput` -/

/-- Modelled from the spec: the class `Arg` (`Arg.h`) is not part of the
source.  An `Arg*` is rendered as the address of the object together with what
the renderer reads through it: `shortID()`, `longID()`, `getDescription()`,
`getFlag()` and `isIgnoreable()`. -/
structure Arg where
  addr : Nat
  shortID : Str
  longID : Str
  description : Str
  flag : Str
  ignoreable : Bool
deriving DecidableEq

/-- Modelled from the spec: `XorHandler::contains` (`XorHandler.h` is not part
of the source): whether the argument is a member of any exclusive group, the
members being compared as pointers. -/
def xorContains (xorList : List (List Arg)) (a : Arg) : Bool :=
  xorList.any fun grp => grp.any fun b => b.addr == a.addr

/-- Modelled from the spec: what `StdOutput` reads from a `CmdLineInterface`
(`CmdLineInterface.h` is not part of the source): the argument list in display
order, the exclusive groups of its `XorHandler`, and the program metadata. -/
structure CmdLineInterface where
  argList : List Arg
  xorList : List (List Arg)
  programPath : Str
  programName : Str
  version : Str
  author : Str
  message : Str
  hasHelpAndVersion : Bool

/-- Modelled from the spec: what `failure` reads from an `ArgException`
(`ArgException.h` is not part of the source): `argId()` and `error()`. -/
structure ArgException where
  argId : Str
  error : Str

/-- The two process streams `StdOutput` writes to. -/
structure Streams where
  cout : Str
  cerr : Str
deriving DecidableEq

/-- How a call ends: by returning, or by throwing `ExitException(status)`. -/
inductive Completion where
  | returned
  | exitException (status : Int)
deriving DecidableEq

/-! ## `StdOutput::shortUsage` -/

/-- The inner loop `s += (*it)->shortID() + "|"` over one exclusive group. -/
def shortUsageMembers (s : Str) (grp : List Arg) : Str :=
  grp.foldl (fun s a => s ++ (a.shortID ++ "|".toList)) s

/-- The assignment `s[s.length()-1] = '}'`. -/
def setLast (s : Str) : Str :=
  s.set (s.length - 1) '}'

/-- The first loop of `shortUsage`: one `" {...}"` per exclusive group. -/
def shortUsageXor (s : Str) (xorList : List (List Arg)) : Str :=
  xorList.foldl (fun s grp => setLast (shortUsageMembers (s ++ " \x7b".toList) grp)) s

/-- The second loop of `shortUsage`: the arguments outside every group that
are not ignoreable. -/
def shortUsageRest (s : Str) (xorList : List (List Arg)) (argList : List Arg) : Str :=
  argList.foldl
    (fun s a => if !xorContains xorList a && !a.ignoreable then s ++ (" ".toList ++ a.shortID)
      else s) s

/-- The string `s` that `shortUsage` has composed when it calls `spacePrint`. -/
def shortUsageText (c : CmdLineInterface) : Str :=
  shortUsageRest (shortUsageXor (c.programPath ++ " [OPTIONS]".toList) c.xorList)
    c.xorList c.argList

/-- The stream after `shortUsage(_cmd, os)`. -/
def shortUsage (fuel : Nat) (c : CmdLineInterface) (os : Str) : Option Str :=
  spacePrint fuel os (shortUsageText c) 80 0 5

/-- The synopsis of one exclusive group in the words of the specification:
`" {"`, the members' short identifiers joined by `"|"`, then `"}"`. -/
def specGroupSynopsis (grp : List Arg) : Str :=
  " \x7b".toList ++ List.intercalate "|".toList (grp.map Arg.shortID) ++ "\x7d".toList

/-- The short synopsis in the words of the specification: the program path and
`" [OPTIONS]"`, the synopsis of each group in order, then a space and the
short identifier of each argument, in registry order, that is in no group and
not ignoreable. -/
def specShortUsage (c : CmdLineInterface) : Str :=
  c.programPath ++ " [OPTIONS]".toList ++ (c.xorList.map specGroupSynopsis).flatten ++
    ((c.argList.filter fun a => !xorContains c.xorList a && !a.ignoreable).map fun a =>
      " ".toList ++ a.shortID).flatten

/-! ## `StdOutput::longUsage` -/

/-- The value `std::max(35 - (int)s.length(), 2)` for `s = longID()`. -/
def spacing (longID : Str) : Int :=
  max (35 - (longID.length : Int)) 2

/-- The line composed for one argument: `longID()`, then `spacing` spaces,
then `getDescription()`. -/
def descLine (a : Arg) : Str :=
  a.longID ++ List.replicate (spacing a.longID).toNat ' ' ++ a.description

/-- The call `spacePrint(os, s, 80, 2, 35)` that both loops of `longUsage`
make on the composed line of an argument. -/
def longUsageArg (fuel : Nat) (os : Str) (a : Arg) : Option Str :=
  spacePrint fuel os (descLine a) 80 2 35

/-- The inner loop of the first part of `longUsage`, over the members of one
exclusive group from the iterator position on. -/
def longUsageGroup (fuel : Nat) : List Arg → Str → Option Str
  | [], os => some os
  | a :: rest, os =>
    (longUsageArg fuel os a).bind fun os1 =>
    let os2 := os1 ++ ['\n']
    (if rest ≠ [] then spacePrint fuel os2 "-- OR --".toList 80 9 0 else some os2).bind fun os3 =>
    longUsageGroup fuel rest (os3 ++ ['\n'])

/-- The first loop of `longUsage`, over the exclusive groups. -/
def longUsageXor (fuel : Nat) : List (List Arg) → Str → Option Str
  | [], os => some os
  | grp :: rest, os => (longUsageGroup fuel grp os).bind fun os1 => longUsageXor fuel rest os1

/-- The second loop of `longUsage`, over the argument list. -/
def longUsageRest (fuel : Nat) (xorList : List (List Arg)) : List Arg → Str → Option Str
  | [], os => some os
  | a :: rest, os =>
    if !xorContains xorList a && a.flag != [] then
      (longUsageArg fuel os a).bind fun os1 => longUsageRest fuel xorList rest (os1 ++ ['\n'])
    else longUsageRest fuel xorList rest os

/-- The stream after `longUsage(_cmd, os)`. -/
def longUsage (fuel : Nat) (c : CmdLineInterface) (os : Str) : Option Str :=
  (longUsageXor fuel c.xorList os).bind fun os1 => longUsageRest fuel c.xorList c.argList os1

/-- The separator line `spacePrint(os, "-- OR --", 80, 9, 0)` is expected to
write: nine spaces, `-- OR --`, and the line break. -/
def orSeparator : Str :=
  List.replicate 9 ' ' ++ "-- OR --".toList ++ ['\n']

/-- The listing of one exclusive group laid out from the blocks of its
members: every block is followed by a blank line, consecutive members are
separated by the separator line and a blank line, and one more blank line
closes the group. -/
def groupListing (blocks : List Str) : Str :=
  List.intercalate (orSeparator ++ ['\n']) (blocks.map fun b => b ++ ['\n']) ++ ['\n']

/-- The blocks of the arguments `as`: `bs` lists, argument by argument, what
`spacePrint(os, s, 80, 2, 35)` appends to the stream for it. -/
def Blocks (fuel : Nat) (as : List Arg) (bs : List Str) : Prop :=
  List.Forall₂ (fun a b => ∀ os, longUsageArg fuel os a = some (os ++ b)) as bs

/-! ## `StdOutput::usage` and `StdOutput::failure` -/

/-- The standard output after `usage(_cmd)`. -/
def usage (fuel : Nat) (c : CmdLineInterface) (cout : Str) : Option Str :=
  (spacePrint fuel cout c.message 80 0 0).bind fun o1 =>
  (shortUsage fuel c (o1 ++ ['\n'] ++ "Usage: ".toList)).bind fun o2 =>
  longUsage fuel c (o2 ++ ['\n'] ++ "Options: ".toList ++ ['\n'])

/-- The streams after `failure(_cmd, e)` and the way the call ends. -/
def failure (fuel : Nat) (c : CmdLineInterface) (e : ArgException) (io : Streams) :
    Option (Streams × Completion) :=
  let err1 := io.cerr ++ "error: ".toList ++ e.argId ++ ['\n'] ++ "       ".toList ++ e.error ++
    ['\n'] ++ ['\n']
  (if c.hasHelpAndVersion then
      (shortUsage fuel c (err1 ++ "Usage: ".toList)).map fun err2 =>
        (⟨io.cout, err2 ++ ['\n'] ++ "For complete USAGE and HELP type: ".toList ++ ['\n'] ++
            "   ".toList ++ c.programPath ++ " --help".toList ++ ['\n'] ++ ['\n']⟩ : Streams)
    else (usage fuel c io.cout).map fun out => (⟨out, err1⟩ : Streams)).map fun io1 =>
  (io1, Completion.exitException 1)

/-- Fuel that suffices for every `spacePrint` call made while rendering `c`:
the length of the longest text any of them is given. -/
def fuelBound (c : CmdLineInterface) : Nat :=
  max (max c.message.length (shortUsageText c).length)
    (((c.argList ++ c.xorList.flatten).map fun a => (descLine a).length).foldr max 0)

/-! ## A sample registry -/

/-- A grouped argument whose description needs a second line. -/
def sampleA : Arg :=
  ⟨1, "-a".toList, "-a,  --alpha".toList,
    "first of two alternatives, described at some length to wrap".toList, "a".toList, false⟩

/-- The other member of the group. -/
def sampleB : Arg :=
  ⟨2, "-b".toList, "-b,  --beta".toList, "second alternative".toList, "b".toList, false⟩

/-- A standalone argument with a flag. -/
def sampleC : Arg :=
  ⟨3, "-c".toList, "-c,  --gamma".toList, "a switch".toList, "c".toList, false⟩

/-- A standalone argument without a flag. -/
def sampleD : Arg :=
  ⟨4, "<file>".toList, "<file>".toList, "input file".toList, [], false⟩

/-- An argument whose long identifier has 42 characters. -/
def sampleLong : Arg :=
  ⟨5, "-x".toList, "-x <level>,  --extremely-long-name <level>".toList,
    "sets the level of detail that is used when the report is written".toList, "x".toList,
    false⟩

/-- A registry with one exclusive group and two standalone arguments. -/
def sampleCmd : CmdLineInterface :=
  ⟨[sampleA, sampleB, sampleC, sampleD], [[sampleA, sampleB]], "prog".toList, "prog".toList,
    "1.0".toList, "nobody".toList, "sample".toList, true⟩

/-! ## Vocabulary for the statements about `spacePrint` -/

/-- The character read at index `i`, NUL at and beyond the end. -/
def chr (s : Str) (i : Nat) : Char := s.getD i (Char.ofNat 0)

/-- Where the line is cut before the newline scan, for `start = p` inside the
text and `allowedLen = A > 0`: the whole remainder when it is shorter than
`A`; otherwise the largest offset `L` in `1 .. A` holding a break character,
and `A` itself when there is none. -/
def CutAt (s : Str) (p A L : Nat) : Prop :=
  (s.length < p + A ∧ p + L = s.length) ∨
  (p + A ≤ s.length ∧
    ((isBreakChar (chr s (p + L)) = true ∧
        ∀ j, L < j → j ≤ A → isBreakChar (chr s (p + j)) = false) ∨
     (L = A ∧ ∀ j, 1 ≤ j → j ≤ A → isBreakChar (chr s (p + j)) = false)))

/-- What the newline scan makes of a cut of `L` characters at `p`: the cut is
moved to just after the first newline among them, if there is one. -/
def NewlineAt (s : Str) (p L n : Nat) : Prop :=
  (n = L ∧ ∀ j, j < L → chr s (p + j) ≠ '\n') ∨
  (∃ j, j < L ∧ n = j + 1 ∧ chr s (p + j) = '\n' ∧ ∀ j1, j1 < j → chr s (p + j1) ≠ '\n')

/-- The facts established by `spacePrintIter_spec` about one iteration at
cursor `p` with `allowedLen = A`: the cut `L`, the length `n` of the text
written and the cursor `q + n` reached. -/
def IterFacts (s : Str) (p A L n q : Nat) : Prop :=
  1 ≤ n ∧ n ≤ L ∧ L ≤ A ∧ p + L ≤ s.length ∧ p ≤ q ∧ q + n ≤ s.length ∧
  (∀ j, p ≤ j → j < q → chr s (j + n) = ' ') ∧ chr s (q + n) ≠ ' ' ∧
  CutAt s p A L ∧ NewlineAt s p L n

/-- The lines written from cursor `p` on, once the indent is `ind` and
`allowedLen` is `A` for good (that is, after the first iteration). -/
inductive Wrapped (s : Str) (ind A : Nat) : Nat → List Line → Prop
  | done (p : Nat) : s.length ≤ p → Wrapped s ind A p []
  | step (p L n q : Nat) (ls : List Line) : p < s.length → IterFacts s p A L n q →
      Wrapped s ind A (q + n) ls → Wrapped s ind A p (⟨ind, (s.drop p).take n⟩ :: ls)

/-! ## Rejoining wrapped lines -/

/-- The text recovered from the contents of the emitted lines: consecutive
contents are joined by a single space, except after a content that ends in the
newline character, where the break was forced by the text itself and is kept
as it is. -/
def rejoin : List Str → Str
  | [] => []
  | [c] => c
  | c :: c1 :: rest =>
    if c.getLast? = some '\n' then c ++ rejoin (c1 :: rest)
    else c ++ ' ' :: rejoin (c1 :: rest)

/-- A text of plain words for lines of `A` characters: it has no comma, pipe
or newline, does not start with a space, every space is followed by a
character that is not a space, and any `A + 1` consecutive characters include
a space. -/
def Spaced (t : Str) (A : Nat) : Prop :=
  (∀ c ∈ t, c ≠ ',' ∧ c ≠ '|' ∧ c ≠ '\n') ∧ chr t 0 ≠ ' ' ∧
  (∀ i, chr t i = ' ' → i + 1 < t.length ∧ chr t (i + 1) ≠ ' ') ∧
  (∀ i, i + A < t.length → ∃ j, j ≤ A ∧ chr t (i + j) = ' ')

/-! ## The wrapping loop with its locals recorded -/

/-- The loop `while (start < len) { ... }` of `spacePrint` once more, recording
for every iteration the locals on entry together with the line written, and
returning the locals with which the loop is left. -/
def spacePrintRun (s : Str) (secondLineOffset : Int) :
    Nat → WrapState → Option (List (WrapState × Line) × WrapState)
  | 0, st => if st.start < (s.length : Int) then none else some ([], st)
  | fuel + 1, st =>
    if st.start < (s.length : Int) then
      (spacePrintIter s secondLineOffset st).bind fun r =>
      (spacePrintRun s secondLineOffset fuel r.2).map fun t =>
      ((st, r.1) :: t.1, t.2)
    else some ([], st)

/-- What holds of a recorded iteration `e` of a run over `s` that was entered
with cursor at least `p`, indent `ind` and `allowedLen = A`: the cursor is
inside the text, the line is written at indent `ind`, and the iteration moves
the cursor forward, at most to the end of the text. -/
def Entry (s : Str) (off : Int) (p : Nat) (ind : Int) (A : Nat) (e : WrapState × Line) : Prop :=
  (p : Int) ≤ e.1.start ∧ e.1.start < (s.length : Int) ∧ e.1.indentSpaces = ind ∧
  e.1.allowedLen = (A : Int) ∧ e.2.indent = ind.toNat ∧ e.2.content.length ≤ A ∧
  ∃ st : WrapState, spacePrintIter s off e.1 = some (e.2, st) ∧ e.1.start < st.start ∧
    st.start ≤ (s.length : Int)

/-! ## Basic facts about the string primitives -/

theorem strAt_nat (s : Str) (n : Nat) (h : n ≤ s.length) :
    strAt s (n : Int) = some (chr s n) := by
  unfold strAt chr
  have h0 : ¬ ((n : Int) < 0) := by omega
  simp only [h0, if_false, Int.toNat_ofNat]
  by_cases h1 : n < s.length
  · simp [h1, List.getD_eq_getElem?_getD, List.getElem?_eq_getElem h1]
  · have h2 : n = s.length := by omega
    subst h2
    simp [List.getD_eq_getElem?_getD]

theorem chr_length_ne_space (s : Str) : chr s s.length ≠ ' ' := by
  unfold chr
  simp [List.getD_eq_getElem?_getD]

theorem chr_length_not_break (s : Str) : isBreakChar (chr s s.length) = false := by
  unfold chr
  simp [List.getD_eq_getElem?_getD]
  decide

theorem substr_nat (s : Str) (p n : Nat) (h : p ≤ s.length) :
    substr s (p : Int) (n : Int) = some ((s.drop p).take n) := by
  unfold substr
  have h1 : ¬ ((p : Int) < 0 ∨ (p : Int) > (s.length : Int)) := by omega
  have h2 : ¬ ((n : Int) < 0) := by omega
  rw [if_neg h1, if_neg h2]
  simp


/-! ## The three inner loops -/

theorem trimLoop_succ (s : Str) (p N : Nat) (h : p + N ≤ s.length) :
    trimLoop s (p : Int) (N + 1) =
      if isBreakChar (chr s (p + N)) = true then some (N : Int) else trimLoop s (p : Int) N := by
  have e : ((N : Nat) : Int) + (p : Int) = ((p + N : Nat) : Int) := by push_cast; ring
  rw [trimLoop, e, strAt_nat s (p + N) h]

/-- The trimming loop started at `stringLen = N` stops at the largest offset
`k ≤ N` holding a break character, or at `-1` when there is none. -/
theorem trimLoop_spec (s : Str) (p : Nat) :
    ∀ N : Nat, p + N ≤ s.length →
      (trimLoop s (p : Int) (N + 1) = some (-1) ∧
          ∀ j, j ≤ N → isBreakChar (chr s (p + j)) = false) ∨
      (∃ k : Nat, k ≤ N ∧ trimLoop s (p : Int) (N + 1) = some (k : Int) ∧
          isBreakChar (chr s (p + k)) = true ∧
          ∀ j, k < j → j ≤ N → isBreakChar (chr s (p + j)) = false) := by
  intro N
  induction N with
  | zero =>
    intro h
    rw [trimLoop_succ s p 0 h]
    by_cases hb : isBreakChar (chr s (p + 0)) = true
    · right
      rw [if_pos hb]
      refine ⟨0, le_refl _, rfl, hb, ?_⟩
      intro j h1 h2; omega
    · left
      rw [if_neg hb]
      simp only [Bool.not_eq_true] at hb
      refine ⟨rfl, ?_⟩
      intro j hj
      have : j = 0 := by omega
      subst this; exact hb
  | succ N ih =>
    intro h
    rw [trimLoop_succ s p (N + 1) h]
    by_cases hb : isBreakChar (chr s (p + (N + 1))) = true
    · right
      rw [if_pos hb]
      refine ⟨N + 1, le_refl _, rfl, hb, ?_⟩
      intro j h1 h2; omega
    · rw [if_neg hb]
      simp only [Bool.not_eq_true] at hb
      rcases ih (by omega) with ⟨h1, h2⟩ | ⟨k, hk, h1, h2, h3⟩
      · left
        refine ⟨h1, ?_⟩
        intro j hj
        by_cases hj1 : j = N + 1
        · subst hj1; exact hb
        · exact h2 j (by omega)
      · right
        refine ⟨k, by omega, h1, h2, ?_⟩
        intro j hj1 hj2
        by_cases hj3 : j = N + 1
        · subst hj3; exact hb
        · exact h3 j hj1 (by omega)

/-- The newline scan over `stringLen = L` characters from `start = p`, entered
at index `i`, returns `j + 1` for the first newline offset `j` in `i .. L-1`,
or `L` when there is none. -/
theorem newlineLoop_spec (s : Str) (p L : Nat) (hL : p + L ≤ s.length) :
    ∀ (k i : Nat), i + k = L →
      (newlineLoop s (p : Int) k (i : Int) (L : Int) = some (L : Int) ∧
          ∀ j, i ≤ j → j < L → chr s (p + j) ≠ '\n') ∨
      (∃ j : Nat, i ≤ j ∧ j < L ∧
          newlineLoop s (p : Int) k (i : Int) (L : Int) = some ((j + 1 : Nat) : Int) ∧
          chr s (p + j) = '\n' ∧ ∀ j1, i ≤ j1 → j1 < j → chr s (p + j1) ≠ '\n') := by
  intro k
  induction k with
  | zero =>
    intro i hi
    left
    refine ⟨rfl, ?_⟩
    intro j h1 h2; omega
  | succ k ih =>
    intro i hi
    have hlt : (i : Int) < (L : Int) := by omega
    have e : (p : Int) + (i : Int) = ((p + i : Nat) : Int) := by push_cast; ring
    rw [newlineLoop, if_pos hlt, e, strAt_nat s (p + i) (by omega)]
    simp only
    by_cases hc : chr s (p + i) = '\n'
    · right
      rw [if_pos hc]
      refine ⟨i, le_refl _, by omega, ?_, hc, ?_⟩
      · have e2 : (i : Int) + 1 = ((i + 1 : Nat) : Int) := by push_cast; ring
        rw [e2]
        cases k with
        | zero => rfl
        | succ k => rw [newlineLoop, if_neg (lt_irrefl _)]
      · intro j1 h1 h2; omega
    · rw [if_neg hc]
      have e2 : (i : Int) + 1 = ((i + 1 : Nat) : Int) := by push_cast; ring
      rw [e2]
      rcases ih (i + 1) (by omega) with ⟨h1, h2⟩ | ⟨j, hj1, hj2, h1, h2, h3⟩
      · left
        refine ⟨h1, ?_⟩
        intro j hj1 hj2
        by_cases hji : j = i
        · subst hji; exact hc
        · exact h2 j (by omega) hj2
      · right
        refine ⟨j, by omega, hj2, h1, h2, ?_⟩
        intro j1 hj3 hj4
        by_cases hji : j1 = i
        · subst hji; exact hc
        · exact h3 j1 (by omega) hj4

/-- The space-skipping loop entered with `stringLen = n ≥ 1` at `start = p`
advances `start` over the whole run of spaces found at `p + n`. -/
theorem skipSpaces_spec (s : Str) (n : Nat) (hn : 1 ≤ n) :
    ∀ (k p : Nat), p + n ≤ s.length → p + k = s.length →
      ∃ q : Nat, p ≤ q ∧ q + n ≤ s.length ∧
        skipSpaces s (n : Int) k (p : Int) = some (q : Int) ∧
        (∀ j, p ≤ j → j < q → chr s (j + n) = ' ') ∧ chr s (q + n) ≠ ' ' := by
  intro k
  induction k with
  | zero =>
    intro p h1 h2
    omega
  | succ k ih =>
    intro p h1 h2
    have e : (n : Int) + (p : Int) = ((p + n : Nat) : Int) := by push_cast; ring
    rw [skipSpaces, e, strAt_nat s (p + n) h1]
    simp only
    by_cases hc : chr s (p + n) = ' '
    · have hlt : p + n < s.length := by
        rcases Nat.lt_or_ge (p + n) s.length with h | h
        · exact h
        · have : p + n = s.length := by omega
          rw [this] at hc
          exact absurd hc (chr_length_ne_space s)
      have hp : (p : Int) < (s.length : Int) := by omega
      rw [if_pos ⟨hc, hp⟩]
      have e2 : (p : Int) + 1 = ((p + 1 : Nat) : Int) := by push_cast; ring
      rw [e2]
      obtain ⟨q, hq1, hq2, hq3, hq4, hq5⟩ := ih (p + 1) (by omega) (by omega)
      refine ⟨q, by omega, hq2, hq3, ?_, hq5⟩
      intro j hj1 hj2
      by_cases hjp : j = p
      · subst hjp; exact hc
      · exact hq4 j (by omega) hj2
    · have hne : ¬ (chr s (p + n) = ' ' ∧ (p : Int) < (s.length : Int)) := fun h => hc h.1
      rw [if_neg hne]
      refine ⟨p, le_refl _, h1, rfl, ?_, hc⟩
      intro j hj1 hj2; omega


/-! ## One iteration of the wrapping loop -/

theorem chooseLen_spec (s : Str) (p A : Nat) (hp : p < s.length) (hA : 0 < A) :
    ∃ L : Nat, chooseLen s (p : Int) (A : Int) = some (L : Int) ∧
      1 ≤ L ∧ L ≤ A ∧ p + L ≤ s.length ∧ CutAt s p A L := by
  unfold chooseLen
  simp only
  by_cases hlt : s.length < p + A
  · have hmin : min ((s.length : Int) - (p : Int)) (A : Int) = ((s.length - p : Nat) : Int) := by
      rw [min_def]; split <;> omega
    have hne : ¬ (((s.length - p : Nat) : Int) = (A : Int)) := by omega
    have hpos : ¬ (((s.length - p : Nat) : Int) ≤ 0) := by omega
    refine ⟨s.length - p, ?_, by omega, by omega, by omega, Or.inl ⟨hlt, by omega⟩⟩
    rw [hmin, if_neg hne, Option.map_some', if_neg hpos]
  · have hle : p + A ≤ s.length := by omega
    have hmin : min ((s.length : Int) - (p : Int)) (A : Int) = (A : Int) := by
      rw [min_def]; split <;> omega
    have hnn : ¬ ((A : Int) < 0) := by omega
    rw [hmin, if_pos rfl, if_neg hnn, Int.toNat_ofNat]
    rcases trimLoop_spec s p A hle with ⟨h1, h2⟩ | ⟨k, hk, h1, h2, h3⟩
    · refine ⟨A, ?_, hA, le_refl _, hle, Or.inr ⟨hle, Or.inr ⟨rfl, fun j _ hj => h2 j hj⟩⟩⟩
      rw [h1, Option.map_some', if_pos (by omega)]
    · by_cases hk0 : k = 0
      · subst hk0
        refine ⟨A, ?_, hA, le_refl _, hle, Or.inr ⟨hle, Or.inr ⟨rfl, fun j hj1 hj => h3 j hj1 hj⟩⟩⟩
        rw [h1, Option.map_some', if_pos (by simp)]
      · refine ⟨k, ?_, by omega, hk, by omega, Or.inr ⟨hle, Or.inl ⟨h2, h3⟩⟩⟩
        rw [h1, Option.map_some', if_neg (by omega)]

/-- One iteration from a cursor `p` inside the text with `allowedLen = A > 0`:
it writes the `n` characters at `p`, where `1 ≤ n ≤ A`, and moves the cursor
to `q + n`, just past the run of spaces that follows them. -/
theorem spacePrintIter_spec (s : Str) (off : Int) (p A : Nat) (ind : Int)
    (hp : p < s.length) (hA : 0 < A) :
    ∃ L n q : Nat,
      spacePrintIter s off ⟨(p : Int), ind, (A : Int)⟩ =
        some (⟨ind.toNat, (s.drop p).take n⟩,
              ⟨((q + n : Nat) : Int), if (p : Int) = 0 then ind + off else ind,
                if (p : Int) = 0 then (A : Int) - off else (A : Int)⟩) ∧
      1 ≤ n ∧ n ≤ L ∧ L ≤ A ∧ p + L ≤ s.length ∧ p ≤ q ∧ q + n ≤ s.length ∧
      (∀ j, p ≤ j → j < q → chr s (j + n) = ' ') ∧ chr s (q + n) ≠ ' ' ∧
      CutAt s p A L ∧ NewlineAt s p L n := by
  obtain ⟨L, hL, hL1, hL2, hL3, hcut⟩ := chooseLen_spec s p A hp hA
  have hnl : ∃ n : Nat, newlineLoop s (p : Int) L ((0 : Nat) : Int) (L : Int) = some (n : Int) ∧
      1 ≤ n ∧ n ≤ L ∧ NewlineAt s p L n := by
    rcases newlineLoop_spec s p L hL3 L 0 (by omega) with ⟨h1, h2⟩ | ⟨j, _, hj2, h1, h2, h3⟩
    · exact ⟨L, h1, hL1, le_refl _, Or.inl ⟨rfl, fun j hj => h2 j (Nat.zero_le _) hj⟩⟩
    · exact ⟨j + 1, h1, by omega, by omega,
        Or.inr ⟨j, hj2, rfl, h2, fun j1 hj1 => h3 j1 (Nat.zero_le _) hj1⟩⟩
  obtain ⟨n, hn, hn1, hn2, hnl⟩ := hnl
  obtain ⟨q, hq1, hq2, hq3, hq4, hq5⟩ :=
    skipSpaces_spec s n hn1 (s.length - p) p (by omega) (by omega)
  refine ⟨L, n, q, ?_, hn1, hn2, hL2, hL3, hq1, hq2, hq4, hq5, hcut, hnl⟩
  have e1 : ((s.length : Int) - (p : Int)).toNat = s.length - p := by omega
  unfold spacePrintIter
  simp only [hL, Option.some_bind, Int.toNat_ofNat]
  rw [show (0 : Int) = ((0 : Nat) : Int) from rfl, hn]
  simp only [Option.some_bind, substr_nat s p n (le_of_lt hp), e1, hq3]
  congr 3


/-! ## The whole loop -/

/-- After the first iteration the loop terminates within `len - start`
iterations, and its lines are described by `Wrapped`. -/
theorem spacePrintLoop_tail (s : Str) (off : Int) (ind : Int) (A : Nat) (hA : 0 < A) :
    ∀ (fuel p : Nat), 1 ≤ p → s.length ≤ p + fuel →
      ∃ ls, spacePrintLoop s off fuel ⟨(p : Int), ind, (A : Int)⟩ = some ls ∧
        Wrapped s ind.toNat A p ls := by
  intro fuel
  induction fuel with
  | zero =>
    intro p _ h
    have hge : ¬ ((p : Int) < (s.length : Int)) := by omega
    exact ⟨[], by simp [spacePrintLoop, hge], Wrapped.done p (by omega)⟩
  | succ fuel ih =>
    intro p hp1 h
    by_cases hlt : p < s.length
    · obtain ⟨L, n, q, hit, hf⟩ := spacePrintIter_spec s off p A ind hlt hA
      have hp0 : ¬ ((p : Int) = 0) := by omega
      rw [if_neg hp0, if_neg hp0] at hit
      have hf1 := hf
      obtain ⟨hn1, _, _, _, hq1, hq2, _⟩ := hf1
      obtain ⟨ls, hls, hw⟩ := ih (q + n) (by omega) (by omega)
      refine ⟨_ :: ls, ?_, Wrapped.step p L n q ls hlt hf hw⟩
      have hlt1 : (p : Int) < (s.length : Int) := by omega
      rw [spacePrintLoop, if_pos hlt1, hit]
      simp only [Option.some_bind, hls]
    · have hge : ¬ ((p : Int) < (s.length : Int)) := by omega
      exact ⟨[], by simp [spacePrintLoop, hge], Wrapped.done p (by omega)⟩

/-- The wrapping path of `spacePrint`, for `0 ≤ indentSpaces`,
`0 ≤ secondLineOffset` and `indentSpaces + secondLineOffset < maxWidth`: with
fuel for `len` iterations the loop terminates; the first line is cut with
`allowedLen = maxWidth - indentSpaces` and written at indent `indentSpaces`,
the others with `allowedLen = maxWidth - indentSpaces - secondLineOffset` at
indent `indentSpaces + secondLineOffset`. -/
theorem spacePrintLines_wrap (s : Str) (mw ind off : Nat)
    (hlong : mw < s.length + ind) (hw : ind + off < mw)
    (fuel : Nat) (hfuel : s.length ≤ fuel) :
    ∃ (L n q : Nat) (ls : List Line),
      spacePrintLines fuel s (mw : Int) (ind : Int) (off : Int) =
        some (⟨ind, s.take n⟩ :: ls) ∧
      IterFacts s 0 (mw - ind) L n q ∧
      Wrapped s (ind + off) (mw - ind - off) (q + n) ls := by
  have hcond : (s.length : Int) + (ind : Int) > (mw : Int) ∧ (mw : Int) > 0 := by omega
  have hlen : 0 < s.length := by omega
  obtain ⟨L, n, q, hit, hf⟩ := spacePrintIter_spec s (off : Int) 0 (mw - ind) (ind : Int) hlen
    (by omega)
  have hf1 := hf
  obtain ⟨hn1, _, _, _, hq1, hq2, _⟩ := hf1
  obtain ⟨fuel1, rfl⟩ : ∃ f, fuel = f + 1 := ⟨fuel - 1, by omega⟩
  obtain ⟨ls, hls, hwr⟩ := spacePrintLoop_tail s (off : Int) ((ind : Int) + (off : Int))
    (mw - ind - off) (by omega) fuel1 (q + n) (by omega) (by omega)
  refine ⟨L, n, q, ls, ?_, hf, ?_⟩
  · have e1 : (mw : Int) - (ind : Int) = ((mw - ind : Nat) : Int) := by omega
    have e2 : ((mw - ind : Nat) : Int) - (off : Int) = ((mw - ind - off : Nat) : Int) := by omega
    rw [spacePrintLines, if_pos hcond, spacePrintLoop, if_pos (by simpa using hlen), e1]
    simp only [Nat.cast_zero, if_true, List.drop_zero, Int.toNat_ofNat] at hit
    rw [hit]
    simp only [Option.some_bind]
    rw [e2, hls]
    rfl
  · have e3 : ((ind : Int) + (off : Int)).toNat = ind + off := by omega
    rw [e3] at hwr
    exact hwr

/-- The non-wrapping path: one line holding the whole text. -/
theorem spacePrintLines_fits (fuel : Nat) (s : Str) (mw ind off : Int)
    (h : ¬ ((s.length : Int) + ind > mw ∧ mw > 0)) :
    spacePrintLines fuel s mw ind off = some [⟨ind.toNat, s⟩] := by
  rw [spacePrintLines, if_neg h]

/-! ## Consequences for the lines -/

theorem Wrapped.indent_width {s : Str} {ind A p : Nat} {ls : List Line}
    (h : Wrapped s ind A p ls) : ∀ l ∈ ls, l.indent = ind ∧ l.content.length ≤ A := by
  induction h with
  | done p _ => intro l hl; simp at hl
  | step p L n q ls hp hf _ ih =>
    intro l hl
    rcases List.mem_cons.mp hl with rfl | hl
    · obtain ⟨_, hn, hL, _⟩ := hf
      refine ⟨rfl, ?_⟩
      simp only [List.length_take, List.length_drop]
      omega
    · exact ih l hl

theorem head?_take_drop (s : Str) (p n : Nat) (hp : p < s.length) (hn : 1 ≤ n) :
    ((s.drop p).take n).head? = some (chr s p) := by
  obtain ⟨m, rfl⟩ : ∃ m, n = m + 1 := ⟨n - 1, by omega⟩
  rw [List.drop_eq_getElem_cons hp, List.take_succ_cons, List.head?_cons]
  simp [chr, List.getD_eq_getElem?_getD, List.getElem?_eq_getElem hp]

theorem Wrapped.no_leading_space {s : Str} {ind A p : Nat} {ls : List Line}
    (h : Wrapped s ind A p ls) : chr s p ≠ ' ' → ∀ l ∈ ls, l.content.head? ≠ some ' ' := by
  induction h with
  | done p _ => intro _ l hl; simp at hl
  | step p L n q ls hp hf _ ih =>
    intro hc l hl
    rcases List.mem_cons.mp hl with rfl | hl
    · obtain ⟨hn, _⟩ := hf
      rw [head?_take_drop s p n hp hn]
      intro h
      exact hc (Option.some.inj h)
    · obtain ⟨_, _, _, _, _, _, _, hq, _⟩ := hf
      exact ih hq l hl

/-! ## Facts about the composition of the synopsis -/

theorem shortUsageMembers_eq (s : Str) (grp : List Arg) :
    shortUsageMembers s grp = s ++ (grp.map fun a => a.shortID ++ ['|']).flatten := by
  unfold shortUsageMembers
  induction grp generalizing s with
  | nil => simp
  | cons a grp ih =>
    rw [List.foldl_cons, ih]
    simp

theorem flatten_map_sep (sep : Char) (ids : List Str) (h : ids ≠ []) :
    (ids.map fun x => x ++ [sep]).flatten = List.intercalate [sep] ids ++ [sep] := by
  induction ids with
  | nil => exact absurd rfl h
  | cons x ids ih =>
    cases ids with
    | nil => simp [List.intercalate]
    | cons y ids =>
      have := ih (by simp)
      simp only [List.map_cons, List.flatten_cons] at this ⊢
      rw [this]
      simp [List.intercalate, List.intersperse]

theorem setLast_append_singleton (l : Str) (x : Char) : setLast (l ++ [x]) = l ++ ['}'] := by
  unfold setLast
  simp [List.set_append]

theorem shortUsage_group_eq (s : Str) (grp : List Arg) (h : grp ≠ []) :
    setLast (shortUsageMembers (s ++ " \x7b".toList) grp) =
      s ++ (" \x7b".toList ++ List.intercalate "|".toList (grp.map Arg.shortID) ++ "\x7d".toList) := by
  have h1 : grp.map Arg.shortID ≠ [] := by simpa using h
  have h2 : (grp.map fun a => a.shortID ++ ['|']) = (grp.map Arg.shortID).map fun x => x ++ ['|'] := by
    simp [List.map_map]
  rw [shortUsageMembers_eq, h2, flatten_map_sep '|' _ h1, ← List.append_assoc, setLast_append_singleton]
  simp

theorem shortUsageXor_eq (xorList : List (List Arg)) (h : ∀ grp ∈ xorList, grp ≠ []) (s : Str) :
    shortUsageXor s xorList =
      s ++ (xorList.map fun grp =>
        " \x7b".toList ++ List.intercalate "|".toList (grp.map Arg.shortID) ++ "\x7d".toList).flatten := by
  unfold shortUsageXor
  induction xorList generalizing s with
  | nil => simp
  | cons grp rest ih =>
    rw [List.foldl_cons, shortUsage_group_eq s grp (h grp (List.mem_cons_self _ _)),
      ih (fun g hg => h g (List.mem_cons_of_mem _ hg))]
    simp

theorem shortUsageRest_eq (xorList : List (List Arg)) (argList : List Arg) (s : Str) :
    shortUsageRest s xorList argList =
      s ++ ((argList.filter fun a => !xorContains xorList a && !a.ignoreable).map fun a =>
        " ".toList ++ a.shortID).flatten := by
  unfold shortUsageRest
  induction argList generalizing s with
  | nil => simp
  | cons a rest ih =>
    rw [List.foldl_cons, ih]
    by_cases hp : (!xorContains xorList a && !a.ignoreable) = true
    · simp [hp, List.filter_cons]
    · simp [hp, List.filter_cons]

theorem count_flatten_map_sep (c sep : Char) (ids : List Str) (h : ∀ x ∈ ids, c ∉ x) :
    List.count c (ids.map fun x => x ++ [sep]).flatten = if c = sep then ids.length else 0 := by
  induction ids with
  | nil => simp
  | cons x ids ih =>
    have hx : List.count c x = 0 := List.count_eq_zero.mpr (h x (List.mem_cons_self _ _))
    simp only [List.map_cons, List.flatten_cons, List.count_append, hx,
      ih (fun y hy => h y (List.mem_cons_of_mem _ hy)), List.length_cons]
    by_cases hc : c = sep
    · subst hc; simp; omega
    · have : List.count c [sep] = 0 := by
        simp [List.count_cons, List.count_nil]
        exact fun h => hc h.symm
      simp [hc, this]

theorem count_intercalate (c sep : Char) (ids : List Str) (hne : ids ≠ [])
    (h : ∀ x ∈ ids, c ∉ x) :
    List.count c (List.intercalate [sep] ids) = if c = sep then ids.length - 1 else 0 := by
  have h1 := count_flatten_map_sep c sep ids h
  rw [flatten_map_sep sep ids hne, List.count_append] at h1
  by_cases hc : c = sep
  · subst hc
    simp only [if_true] at h1 ⊢
    simp at h1
    omega
  · simp only [hc, if_false] at h1 ⊢
    omega

/-! ## Facts about the option listing -/

theorem spacePrint_append (fuel : Nat) (os s : Str) (mw ind off : Int) :
    spacePrint fuel os s mw ind off = (spacePrint fuel [] s mw ind off).map fun out => os ++ out := by
  unfold spacePrint
  cases spacePrintLines fuel s mw ind off <;> simp

/-- With `indentSpaces + secondLineOffset < maxWidth` and fuel for `len`
iterations, `spacePrint` writes a first line at indent `indentSpaces` and
every other line at indent `indentSpaces + secondLineOffset`. -/
theorem spacePrintLines_shape (s : Str) (mw ind off : Nat) (hw : ind + off < mw)
    (fuel : Nat) (hfuel : s.length ≤ fuel) :
    ∃ (first : Line) (rest : List Line),
      spacePrintLines fuel s (mw : Int) (ind : Int) (off : Int) = some (first :: rest) ∧
      first.indent = ind ∧ ∀ l ∈ rest, l.indent = ind + off := by
  by_cases hlong : mw < s.length + ind
  · obtain ⟨L, n, q, ls, hls, _, hwr⟩ := spacePrintLines_wrap s mw ind off hlong hw fuel hfuel
    exact ⟨_, ls, hls, rfl, fun l hl => (hwr.indent_width l hl).1⟩
  · have hcond : ¬ ((s.length : Int) + (ind : Int) > (mw : Int) ∧ (mw : Int) > 0) := by omega
    refine ⟨⟨ind, s⟩, [], ?_, rfl, by simp⟩
    rw [spacePrintLines_fits _ _ _ _ _ hcond]
    simp

/-- As `spacePrintLines_shape`, and the content of the first line is a prefix
of the text. -/
theorem spacePrintLines_first (s : Str) (mw ind off : Nat) (hw : ind + off < mw)
    (fuel : Nat) (hfuel : s.length ≤ fuel) :
    ∃ (first : Line) (rest : List Line),
      spacePrintLines fuel s (mw : Int) (ind : Int) (off : Int) = some (first :: rest) ∧
      first.indent = ind ∧ (∀ l ∈ rest, l.indent = ind + off) ∧ first.content <+: s := by
  by_cases hlong : mw < s.length + ind
  · obtain ⟨L, n, q, ls, hls, _, hwr⟩ := spacePrintLines_wrap s mw ind off hlong hw fuel hfuel
    exact ⟨_, ls, hls, rfl, fun l hl => (hwr.indent_width l hl).1, List.take_prefix n s⟩
  · have hcond : ¬ ((s.length : Int) + (ind : Int) > (mw : Int) ∧ (mw : Int) > 0) := by omega
    refine ⟨⟨ind, s⟩, [], ?_, rfl, by simp, List.prefix_refl s⟩
    rw [spacePrintLines_fits _ _ _ _ _ hcond]
    simp

theorem spacePrint_total (s : Str) (mw ind off : Nat) (hw : ind + off < mw)
    (fuel : Nat) (hfuel : s.length ≤ fuel) :
    ∃ out : Str, ∀ os, spacePrint fuel os s (mw : Int) (ind : Int) (off : Int) = some (os ++ out) := by
  obtain ⟨first, rest, h, _⟩ := spacePrintLines_shape s mw ind off hw fuel hfuel
  exact ⟨renderLines (first :: rest), fun os => by rw [spacePrint, h]; rfl⟩

theorem longUsageArg_total (fuel : Nat) (a : Arg) (hfuel : (descLine a).length ≤ fuel) :
    ∃ out : Str, ∀ os, longUsageArg fuel os a = some (os ++ out) :=
  spacePrint_total (descLine a) 80 2 35 (by decide) fuel hfuel

theorem spacePrint_separator (fuel : Nat) (os : Str) :
    spacePrint fuel os "-- OR --".toList 80 9 0 = some (os ++ orSeparator) := by
  have hcond : ¬ ((("-- OR --".toList).length : Int) + 9 > 80 ∧ (80 : Int) > 0) := by decide
  rw [spacePrint, spacePrintLines_fits _ _ _ _ _ hcond]
  simp [renderLines, Line.render, orSeparator]

theorem longUsageGroup_spec (fuel : Nat) :
    ∀ (grp : List Arg), grp ≠ [] → (∀ a ∈ grp, (descLine a).length ≤ fuel) →
      ∃ bs, Blocks fuel grp bs ∧
        ∀ os, longUsageGroup fuel grp os = some (os ++ groupListing bs) := by
  intro grp
  induction grp with
  | nil => intro h; exact absurd rfl h
  | cons a rest ih =>
    intro _ hfuel
    obtain ⟨b, hb⟩ := longUsageArg_total fuel a (hfuel a (List.mem_cons_self _ _))
    by_cases hrest : rest = []
    · subst hrest
      refine ⟨[b], List.Forall₂.cons hb List.Forall₂.nil, ?_⟩
      intro os
      simp [longUsageGroup, hb, groupListing, List.intercalate, List.intersperse]
    · obtain ⟨bs, hbs, hout⟩ := ih hrest (fun x hx => hfuel x (List.mem_cons_of_mem _ hx))
      refine ⟨b :: bs, List.Forall₂.cons hb hbs, ?_⟩
      intro os
      have hbs1 : bs ≠ [] := by
        intro h
        rw [h] at hbs
        cases hbs
        exact hrest rfl
      obtain ⟨b1, bs1, rfl⟩ := List.exists_cons_of_ne_nil hbs1
      rw [longUsageGroup, hb]
      simp only [Option.some_bind, if_pos hrest, spacePrint_separator, hout]
      simp [groupListing, List.intercalate, List.intersperse]

theorem longUsageXor_total (fuel : Nat) :
    ∀ (xorList : List (List Arg)), (∀ grp ∈ xorList, ∀ a ∈ grp, (descLine a).length ≤ fuel) →
      ∃ out : Str, ∀ os, longUsageXor fuel xorList os = some (os ++ out) := by
  intro xorList
  induction xorList with
  | nil => intro _; exact ⟨[], fun os => by simp [longUsageXor]⟩
  | cons grp rest ih =>
    intro hfuel
    obtain ⟨out2, h2⟩ := ih (fun g hg => hfuel g (List.mem_cons_of_mem _ hg))
    by_cases hg : grp = []
    · subst hg
      exact ⟨out2, fun os => by simp [longUsageXor, longUsageGroup, h2]⟩
    · obtain ⟨bs, _, h1⟩ := longUsageGroup_spec fuel grp hg (hfuel grp (List.mem_cons_self _ _))
      exact ⟨groupListing bs ++ out2, fun os => by simp [longUsageXor, h1, h2]⟩

theorem longUsageRest_spec (fuel : Nat) (xorList : List (List Arg)) :
    ∀ (argList : List Arg), (∀ a ∈ argList, (descLine a).length ≤ fuel) →
      ∃ bs, Blocks fuel (argList.filter fun a => !xorContains xorList a && a.flag != []) bs ∧
        ∀ os, longUsageRest fuel xorList argList os =
          some (os ++ (bs.map fun b => b ++ ['\n']).flatten) := by
  intro argList
  induction argList with
  | nil => intro _; exact ⟨[], List.Forall₂.nil, fun os => by simp [longUsageRest]⟩
  | cons a rest ih =>
    intro hfuel
    obtain ⟨bs, hbs, hout⟩ := ih (fun x hx => hfuel x (List.mem_cons_of_mem _ hx))
    by_cases hp : (!xorContains xorList a && a.flag != []) = true
    · obtain ⟨b, hb⟩ := longUsageArg_total fuel a (hfuel a (List.mem_cons_self _ _))
      refine ⟨b :: bs, ?_, ?_⟩
      · rw [List.filter_cons, if_pos hp]
        exact List.Forall₂.cons hb hbs
      · intro os
        rw [longUsageRest, if_pos hp, hb]
        simp [hout]
    · refine ⟨bs, ?_, ?_⟩
      · rw [List.filter_cons, if_neg hp]
        exact hbs
      · intro os
        rw [longUsageRest, if_neg hp, hout]

theorem le_foldr_max (l : List Nat) (x : Nat) (h : x ∈ l) : x ≤ l.foldr max 0 := by
  induction l with
  | nil => simp at h
  | cons y l ih =>
    rcases List.mem_cons.mp h with rfl | h
    · simp
    · have := ih h
      simp only [List.foldr_cons]
      omega

theorem fuelBound_message (c : CmdLineInterface) : c.message.length ≤ fuelBound c := by
  unfold fuelBound; omega

theorem fuelBound_short (c : CmdLineInterface) : (shortUsageText c).length ≤ fuelBound c := by
  unfold fuelBound; omega

theorem fuelBound_arg (c : CmdLineInterface) (a : Arg) (h : a ∈ c.argList) :
    (descLine a).length ≤ fuelBound c := by
  have := le_foldr_max ((c.argList ++ c.xorList.flatten).map fun a => (descLine a).length)
    (descLine a).length (List.mem_map.mpr ⟨a, List.mem_append_left _ h, rfl⟩)
  unfold fuelBound; omega

theorem fuelBound_member (c : CmdLineInterface) (grp : List Arg) (hg : grp ∈ c.xorList)
    (a : Arg) (h : a ∈ grp) : (descLine a).length ≤ fuelBound c := by
  have := le_foldr_max ((c.argList ++ c.xorList.flatten).map fun a => (descLine a).length)
    (descLine a).length
    (List.mem_map.mpr ⟨a, List.mem_append_right _ (List.mem_flatten.mpr ⟨grp, hg, h⟩), rfl⟩)
  unfold fuelBound; omega

theorem length_intersperse_sep (sep : Str) (l : List Str) :
    (l.intersperse sep).length = 2 * l.length - 1 := by
  induction l with
  | nil => rfl
  | cons x l ih =>
    cases l with
    | nil => rfl
    | cons y l =>
      simp only [List.intersperse, List.length_cons] at ih ⊢
      omega

/-! ## Rejoining the lines of a text of plain words -/

theorem chr_eq_getElem (t : Str) (p : Nat) (h : p < t.length) : chr t p = t[p] := by
  simp [chr, List.getD_eq_getElem?_getD, List.getElem?_eq_getElem h]

theorem chr_mem (t : Str) (p : Nat) (h : p < t.length) : chr t p ∈ t := by
  rw [chr_eq_getElem t p h]
  exact List.getElem_mem h

theorem drop_split (t : Str) (p n : Nat) (h : p + n < t.length) :
    t.drop p = (t.drop p).take n ++ chr t (p + n) :: t.drop (p + n + 1) := by
  have h1 : (t.drop p).drop n = t.drop (p + n) := by rw [List.drop_drop]
  have h2 : t.drop (p + n) = t[p + n] :: t.drop (p + n + 1) := List.drop_eq_getElem_cons h
  rw [chr_eq_getElem t (p + n) h, ← h2, ← h1, List.take_append_drop]

theorem isBreakChar_plain (t : Str) (i : Nat)
    (hplain : ∀ c ∈ t, c ≠ ',' ∧ c ≠ '|' ∧ c ≠ '\n')
    (h : isBreakChar (chr t i) = true) : i < t.length ∧ chr t i = ' ' := by
  have hi : i < t.length := by
    rcases Nat.lt_or_ge i t.length with h1 | h1
    · exact h1
    · exfalso
      have : chr t i = Char.ofNat 0 := by
        simp [chr, List.getD_eq_getElem?_getD, List.getElem?_eq_none h1]
      rw [this] at h
      exact absurd h (by decide)
  refine ⟨hi, ?_⟩
  obtain ⟨h1, h2, _⟩ := hplain _ (chr_mem t i hi)
  simp only [isBreakChar, Bool.or_eq_true, beq_iff_eq] at h
  rcases h with (h | h) | h
  · exact h
  · exact absurd h h1
  · exact absurd h h2

/-- One iteration on a text of plain words, from the start of a word: either
the rest of the text is written, or a full group of words is written and the
cursor moves past the single space that follows it. -/
theorem iter_spaced (t : Str) (A1 A p L n q : Nat) (hs : Spaced t A1) (hA : A1 ≤ A)
    (hc : chr t p ≠ ' ') (hf : IterFacts t p A L n q) :
    (q + n = t.length ∧ (t.drop p).take n = t.drop p) ∨
    (q + n < t.length ∧ (t.drop p).take n ++ ' ' :: t.drop (q + n) = t.drop p) := by
  obtain ⟨hplain, _, hsp, hwin⟩ := hs
  obtain ⟨hn1, hn2, hL, hpL, hq1, hq2, hskip, hq, hcut, hnl⟩ := hf
  have hnL : n = L := by
    rcases hnl with ⟨h, _⟩ | ⟨j, hj, _, hj2, _⟩
    · exact h
    · exfalso
      exact (hplain _ (chr_mem t (p + j) (by omega))).2.2 (by rw [chr_eq_getElem t _ (by omega)] at hj2; rw [chr_eq_getElem t _ (by omega)]; exact hj2)
  subst hnL
  have hfinal : p + n = t.length → (q + n = t.length ∧ (t.drop p).take n = t.drop p) := by
    intro h
    refine ⟨by omega, ?_⟩
    apply List.take_of_length_le
    simp only [List.length_drop]; omega
  have hbreak : isBreakChar (chr t (p + n)) = true →
      (q + n < t.length ∧ (t.drop p).take n ++ ' ' :: t.drop (q + n) = t.drop p) := by
    intro hb
    obtain ⟨hlt, hspace⟩ := isBreakChar_plain t (p + n) hplain hb
    obtain ⟨hlt1, hnext⟩ := hsp (p + n) hspace
    have hqp : q = p + 1 := by
      have h1 : q ≠ p := by
        intro h
        rw [h] at hq
        exact hq hspace
      by_contra h2
      have h3 : p + 1 < q := by omega
      have := hskip (p + 1) (by omega) h3
      rw [show p + 1 + n = p + n + 1 by omega] at this
      exact hnext this
    subst hqp
    refine ⟨by omega, ?_⟩
    rw [show p + 1 + n = p + n + 1 by omega]
    have := drop_split t p n hlt
    rw [hspace] at this
    exact this.symm
  rcases hcut with ⟨_, h2⟩ | ⟨h1, ⟨hb, _⟩ | ⟨hLA, hnone⟩⟩
  · exact Or.inl (hfinal h2)
  · exact Or.inr (hbreak hb)
  · subst hLA
    rcases Nat.lt_or_ge (p + n) t.length with hlt | hge
    · exfalso
      obtain ⟨j, hj1, hj2⟩ := hwin p (by omega)
      have hj0 : j ≠ 0 := by
        intro h
        subst h
        exact hc hj2
      have := hnone j (by omega) (by omega)
      rw [hj2] at this
      exact absurd this (by decide)
    · exact Or.inl (hfinal (by omega))

theorem Wrapped.eq_nil {s : Str} {ind A p : Nat} {ls : List Line}
    (h : Wrapped s ind A p ls) (hp : s.length ≤ p) : ls = [] := by
  cases h with
  | done _ _ => rfl
  | step L n q ls hlt _ _ => omega

theorem Wrapped.ne_nil {s : Str} {ind A p : Nat} {ls : List Line}
    (h : Wrapped s ind A p ls) (hp : p < s.length) : ls ≠ [] := by
  cases h with
  | done _ h1 => omega
  | step L n q ls hlt _ _ => simp

theorem getLast?_ne_newline (t c : Str) (hplain : ∀ x ∈ t, x ≠ ',' ∧ x ≠ '|' ∧ x ≠ '\n')
    (hsub : ∀ x ∈ c, x ∈ t) : c.getLast? ≠ some '\n' := by
  intro h
  have hm : '\n' ∈ c := List.mem_of_getLast?_eq_some h
  exact (hplain _ (hsub _ hm)).2.2 rfl

theorem Wrapped.rejoin_spaced {t : Str} {ind A p : Nat} {ls : List Line}
    (h : Wrapped t ind A p ls) (A1 : Nat) (hs : Spaced t A1) (hA : A1 ≤ A) :
    chr t p ≠ ' ' → rejoin (ls.map Line.content) = t.drop p := by
  induction h with
  | done p hp =>
    intro _
    simp [rejoin, List.drop_eq_nil_of_le hp]
  | step p L n q ls hp hf hw ih =>
    intro hc
    have hq : chr t (q + n) ≠ ' ' := hf.2.2.2.2.2.2.2.1
    have ih1 := ih hq
    rcases iter_spaced t A1 A p L n q hs hA hc hf with ⟨h1, h2⟩ | ⟨h1, h2⟩
    · have : ls = [] := hw.eq_nil (by omega)
      subst this
      simp [rejoin, h2]
    · obtain ⟨l, ls1, rfl⟩ := List.exists_cons_of_ne_nil (hw.ne_nil h1)
      have hnl : ((t.drop p).take n).getLast? ≠ some '\n' :=
        getLast?_ne_newline t _ hs.1
          (fun x hx => List.mem_of_mem_drop (List.mem_of_mem_take hx))
      simp only [List.map_cons] at ih1 ⊢
      rw [rejoin, if_neg hnl, ih1, h2]

theorem chr_nil_ne_space (i : Nat) : chr ([] : Str) i ≠ ' ' := by
  simp [chr]

theorem chr_of_le (t : Str) (i : Nat) (h : t.length ≤ i) : chr t i = Char.ofNat 0 := by
  simp [chr, List.getD_eq_getElem?_getD, List.getElem?_eq_none h]

theorem chr_ne_space_of_le (t : Str) (i : Nat) (h : t.length ≤ i) : chr t i ≠ ' ' := by
  rw [chr_of_le t i h]
  decide

theorem chr_append_left (a b : Str) (i : Nat) (h : i < a.length) :
    chr (a ++ b) i = chr a i := by
  simp [chr, List.getD_eq_getElem?_getD, List.getElem?_append_left h]

theorem chr_append_right (a b : Str) (i : Nat) (h : a.length ≤ i) :
    chr (a ++ b) i = chr b (i - a.length) := by
  simp [chr, List.getD_eq_getElem?_getD, List.getElem?_append_right h]

theorem chr_cons_succ (c : Char) (b : Str) (i : Nat) : chr (c :: b) (i + 1) = chr b i := by
  simp [chr, List.getD_eq_getElem?_getD]

theorem chr_cons_zero (c : Char) (b : Str) : chr (c :: b) 0 = c := by
  simp [chr, List.getD_eq_getElem?_getD]

/-- The character at index `i` of a word, a space and more text. -/
theorem chr_word_space (w t : Str) (i : Nat) :
    chr (w ++ ' ' :: t) i =
      if i < w.length then chr w i else if i = w.length then ' ' else chr t (i - w.length - 1) := by
  by_cases h1 : i < w.length
  · rw [if_pos h1, chr_append_left _ _ _ h1]
  · rw [if_neg h1, chr_append_right _ _ _ (by omega)]
    by_cases h2 : i = w.length
    · rw [if_pos h2, h2, Nat.sub_self, chr_cons_zero]
    · rw [if_neg h2]
      obtain ⟨k, hk⟩ : ∃ k, i - w.length = k + 1 := ⟨i - w.length - 1, by omega⟩
      rw [hk, chr_cons_succ]
      congr 1

theorem spaced_single (w : Str) (A : Nat) (hlen : w.length ≤ A)
    (hch : ∀ c ∈ w, c ≠ ' ' ∧ c ≠ ',' ∧ c ≠ '|' ∧ c ≠ '\n') : Spaced w A := by
  have hns : ∀ i, chr w i ≠ ' ' := by
    intro i
    rcases Nat.lt_or_ge i w.length with h | h
    · exact (hch _ (chr_mem w i h)).1
    · exact chr_ne_space_of_le w i h
  refine ⟨fun c hc => (hch c hc).2, hns 0, fun i h => absurd h (hns i), fun i h => by omega⟩

theorem spaced_cons (w t : Str) (A : Nat) (hlen : w.length ≤ A)
    (hch : ∀ c ∈ w, c ≠ ' ' ∧ c ≠ ',' ∧ c ≠ '|' ∧ c ≠ '\n') (hw : w ≠ [])
    (ht : Spaced t A) (hne : t ≠ []) : Spaced (w ++ ' ' :: t) A := by
  obtain ⟨hplain, h0, hsp, hwin⟩ := ht
  have hwl : 0 < w.length := List.length_pos.mpr hw
  have htl : 0 < t.length := List.length_pos.mpr hne
  have hwns : ∀ i, i < w.length → chr w i ≠ ' ' := fun i h => (hch _ (chr_mem w i h)).1
  refine ⟨?_, ?_, ?_, ?_⟩
  · intro c hc
    rcases List.mem_append.mp hc with h | h
    · exact (hch c h).2
    · rcases List.mem_cons.mp h with rfl | h
      · decide
      · exact hplain c h
  · rw [chr_word_space, if_pos hwl]
    exact hwns 0 hwl
  · intro i hi
    rw [chr_word_space] at hi
    simp only [List.length_append, List.length_cons]
    by_cases h1 : i < w.length
    · rw [if_pos h1] at hi
      exact absurd hi (hwns i h1)
    · rw [if_neg h1] at hi
      by_cases h2 : i = w.length
      · subst h2
        refine ⟨by omega, ?_⟩
        rw [chr_word_space, if_neg (by omega), if_neg (by omega)]
        simpa using h0
      · rw [if_neg h2] at hi
        obtain ⟨h3, h4⟩ := hsp _ hi
        refine ⟨by omega, ?_⟩
        rw [chr_word_space, if_neg (by omega), if_neg (by omega)]
        rw [show i + 1 - w.length - 1 = i - w.length - 1 + 1 by omega]
        exact h4
  · intro i hi
    simp only [List.length_append, List.length_cons] at hi
    by_cases h1 : i ≤ w.length
    · refine ⟨w.length - i, by omega, ?_⟩
      rw [chr_word_space, if_neg (by omega), if_pos (by omega)]
    · obtain ⟨j, hj1, hj2⟩ := hwin (i - w.length - 1) (by omega)
      refine ⟨j, hj1, ?_⟩
      rw [chr_word_space, if_neg (by omega), if_neg (by omega)]
      rw [show i + j - w.length - 1 = i - w.length - 1 + j by omega]
      exact hj2

theorem intercalate_cons_cons (sep x y : Str) (ys : List Str) :
    List.intercalate sep (x :: y :: ys) = x ++ (sep ++ List.intercalate sep (y :: ys)) := by
  simp [List.intercalate, List.intersperse]

/-- Words joined by single spaces form a text of plain words. -/
theorem spaced_of_words (A : Nat) :
    ∀ ws : List Str,
      (∀ w ∈ ws, w ≠ [] ∧ w.length ≤ A ∧ ∀ c ∈ w, c ≠ ' ' ∧ c ≠ ',' ∧ c ≠ '|' ∧ c ≠ '\n') →
      Spaced (List.intercalate [' '] ws) A ∧ (ws ≠ [] → List.intercalate [' '] ws ≠ []) := by
  intro ws
  induction ws with
  | nil =>
    intro _
    refine ⟨⟨by simp [List.intercalate], ?_, ?_, ?_⟩, fun h => absurd rfl h⟩
    · exact chr_nil_ne_space 0
    · intro i h
      exact absurd h (chr_nil_ne_space i)
    · intro i h
      simp [List.intercalate] at h
  | cons w ws ih =>
    intro hws
    obtain ⟨hw, hlen, hch⟩ := hws w (List.mem_cons_self _ _)
    have ih1 := ih (fun x hx => hws x (List.mem_cons_of_mem _ hx))
    cases ws with
    | nil =>
      have e : List.intercalate [' '] [w] = w := by simp [List.intercalate, List.intersperse]
      rw [e]
      exact ⟨spaced_single w A hlen hch, fun _ => hw⟩
    | cons y ys =>
      rw [intercalate_cons_cons]
      refine ⟨?_, fun _ => by simp [hw]⟩
      exact spaced_cons w _ A hlen hch hw ih1.1 (ih1.2 (by simp))

/-! ## Claims about `spacePrint` -/

/-- C1. For `maxWidth > 0`, `baseIndent ≥ 0`, `firstLineOffset ≥ 0` and
`baseIndent + firstLineOffset < maxWidth`, `spacePrint` (given fuel for
`length s` iterations) emits lines each of which satisfies
`indent + length content ≤ maxWidth`, where the indent is `baseIndent` for the
first line and `baseIndent + firstLineOffset` for every later one.  At
`maxWidth = 80`, `baseIndent = 2`, `firstLineOffset = 33` this bounds the first
line's content by 78 and every later line's content by 45 characters. -/
theorem spacePrint_line_width (s : Str) (maxWidth baseIndent firstLineOffset : Int)
    (fuel : Nat) (hmw : 0 < maxWidth) (hbi : 0 ≤ baseIndent) (hoff : 0 ≤ firstLineOffset)
    (hlt : baseIndent + firstLineOffset < maxWidth) (hfuel : s.length ≤ fuel) :
    ∃ ls, spacePrintLines fuel s maxWidth baseIndent firstLineOffset = some ls ∧
      ∀ (i : Nat) (h : i < ls.length),
        ((ls[i]).indent : Int) = (if i = 0 then baseIndent else baseIndent + firstLineOffset) ∧
        ((ls[i]).indent : Int) + ((ls[i]).content.length : Int) ≤ maxWidth := by
  lift maxWidth to Nat using le_of_lt hmw with mw
  lift baseIndent to Nat using hbi with ind
  lift firstLineOffset to Nat using hoff with off
  have hw : ind + off < mw := by omega
  by_cases hlong : mw < s.length + ind
  · obtain ⟨L, n, q, ls, hls, hf, hwr⟩ := spacePrintLines_wrap s mw ind off hlong hw fuel hfuel
    refine ⟨_, hls, ?_⟩
    intro i h
    cases i with
    | zero =>
      obtain ⟨_, hn, hL, _⟩ := hf
      simp only [List.getElem_cons_zero, if_true, List.length_take, true_and]
      omega
    | succ i =>
      have hi : i < ls.length := by simpa using h
      obtain ⟨h1, h2⟩ := hwr.indent_width ls[i] (List.getElem_mem hi)
      simp only [List.getElem_cons_succ, Nat.succ_ne_zero, if_false, h1]
      push_cast
      omega
  · have hcond : ¬ ((s.length : Int) + (ind : Int) > (mw : Int) ∧ (mw : Int) > 0) := by omega
    refine ⟨[⟨ind, s⟩], by rw [spacePrintLines_fits _ _ _ _ _ hcond]; simp, ?_⟩
    intro i h
    have hi : i = 0 := by simpa using h
    subst hi
    simp only [List.getElem_cons_zero, if_true, true_and]
    omega

/-- Witness for C1: a twelve-character text at width 10, indent 1, offset 2. -/
theorem spacePrint_line_width_witness :
    ∃ ls, spacePrintLines 12 "hello, world".toList 10 1 2 = some ls ∧
      ∀ (i : Nat) (h : i < ls.length),
        ((ls[i]).indent : Int) = (if i = 0 then 1 else 1 + 2) ∧
        ((ls[i]).indent : Int) + ((ls[i]).content.length : Int) ≤ 10 :=
  spacePrint_line_width "hello, world".toList 10 1 2 12 (by decide) (by decide) (by decide)
    (by decide) (by decide)

/-- C2, counterexample. With indent and offset 0, rejoining the emitted lines
with single spaces does not give back the text: a word longer than the width
is split (`abcdef` at width 3 comes back as `abc def`), a cut before a comma
puts a space in front of it (`ab,cd` at width 3 comes back as `ab ,cd`), and a
run of two spaces at a cut comes back as one (`ab  cd` at width 2). -/
theorem spacePrint_rejoin_counterexample :
    (spacePrintLines 6 "abcdef".toList 3 0 0 =
        some [⟨0, "abc".toList⟩, ⟨0, "def".toList⟩] ∧
      rejoin ["abc".toList, "def".toList] ≠ "abcdef".toList) ∧
    (spacePrintLines 5 "ab,cd".toList 3 0 0 =
        some [⟨0, "ab".toList⟩, ⟨0, ",cd".toList⟩] ∧
      rejoin ["ab".toList, ",cd".toList] ≠ "ab,cd".toList) ∧
    (spacePrintLines 6 "ab  cd".toList 2 0 0 =
        some [⟨0, "ab".toList⟩, ⟨0, "cd".toList⟩] ∧
      rejoin ["ab".toList, "cd".toList] ≠ "ab  cd".toList) := by
  decide

/-- C2, amended. Let the text consist of non-empty words joined by single
spaces, the words containing no space, comma, pipe or newline and each at most
`maxWidth - baseIndent - firstLineOffset` characters long, and let
`maxWidth > 0`, `baseIndent ≥ 0`, `firstLineOffset ≥ 0`,
`baseIndent + firstLineOffset < maxWidth`.  Then `spacePrint` (given fuel for
the length of the text) emits lines whose contents, rejoined with a single
space at every break, are exactly the text. -/
theorem spacePrint_rejoin_words (ws : List Str) (maxWidth baseIndent firstLineOffset : Int)
    (fuel : Nat) (hmw : 0 < maxWidth) (hbi : 0 ≤ baseIndent) (hoff : 0 ≤ firstLineOffset)
    (hlt : baseIndent + firstLineOffset < maxWidth)
    (hws : ∀ w ∈ ws, w ≠ [] ∧ (w.length : Int) ≤ maxWidth - baseIndent - firstLineOffset ∧
      ∀ c ∈ w, c ≠ ' ' ∧ c ≠ ',' ∧ c ≠ '|' ∧ c ≠ '\n')
    (hfuel : (List.intercalate [' '] ws).length ≤ fuel) :
    ∃ ls, spacePrintLines fuel (List.intercalate [' '] ws) maxWidth baseIndent firstLineOffset =
        some ls ∧
      rejoin (ls.map Line.content) = List.intercalate [' '] ws := by
  lift maxWidth to Nat using le_of_lt hmw with mw
  lift baseIndent to Nat using hbi with ind
  lift firstLineOffset to Nat using hoff with off
  have hw : ind + off < mw := by omega
  have hsp : Spaced (List.intercalate [' '] ws) (mw - ind - off) :=
    (spaced_of_words (mw - ind - off) ws (fun w hw1 => by
      obtain ⟨h1, h2, h3⟩ := hws w hw1
      exact ⟨h1, by omega, h3⟩)).1
  generalize List.intercalate [' '] ws = t at hsp hfuel ⊢
  by_cases hlong : mw < t.length + ind
  · obtain ⟨L, n, q, ls, hls, hf, hwr⟩ := spacePrintLines_wrap t mw ind off hlong hw fuel hfuel
    refine ⟨_, hls, ?_⟩
    have hq : chr t (q + n) ≠ ' ' := hf.2.2.2.2.2.2.2.1
    have hrest := hwr.rejoin_spaced (mw - ind - off) hsp (le_refl _) hq
    rcases iter_spaced t (mw - ind - off) (mw - ind) 0 L n q hsp (by omega) hsp.2.1 hf
      with ⟨h1, h2⟩ | ⟨h1, h2⟩
    · have : ls = [] := hwr.eq_nil (by omega)
      subst this
      simp only [List.drop_zero] at h2
      simp [rejoin, h2]
    · obtain ⟨l, ls1, rfl⟩ := List.exists_cons_of_ne_nil (hwr.ne_nil h1)
      simp only [List.drop_zero] at h2
      have hnl : (t.take n).getLast? ≠ some '\n' :=
        getLast?_ne_newline t _ hsp.1 (fun x hx => List.mem_of_mem_take hx)
      simp only [List.map_cons] at hrest ⊢
      rw [rejoin, if_neg hnl, hrest, h2]
  · have hcond : ¬ ((t.length : Int) + (ind : Int) > (mw : Int) ∧ (mw : Int) > 0) := by omega
    refine ⟨[⟨ind, t⟩], by rw [spacePrintLines_fits _ _ _ _ _ hcond]; simp, ?_⟩
    simp [rejoin]

/-- Witness for the amended C2: four words wrapped at width 7. -/
theorem spacePrint_rejoin_words_witness :
    ∃ ls, spacePrintLines 16 (List.intercalate [' ']
          ["one".toList, "two".toList, "three".toList, "ab".toList]) 7 0 0 = some ls ∧
      rejoin (ls.map Line.content) =
        List.intercalate [' '] ["one".toList, "two".toList, "three".toList, "ab".toList] :=
  spacePrint_rejoin_words ["one".toList, "two".toList, "three".toList, "ab".toList] 7 0 0 16
    (by decide) (by decide) (by decide) (by decide) (by decide) (by decide)


/-- C3. When `maxWidth ≤ 0` or `length s + baseIndent ≤ maxWidth` (with
`baseIndent ≥ 0`), `spacePrint` emits exactly one line: `baseIndent` spaces,
then `s` unchanged, then one line break, whatever `firstLineOffset` is. -/
theorem spacePrint_single_line (fuel : Nat) (os s : Str)
    (maxWidth baseIndent firstLineOffset : Int) (hbi : 0 ≤ baseIndent)
    (h : maxWidth ≤ 0 ∨ (s.length : Int) + baseIndent ≤ maxWidth) :
    spacePrintLines fuel s maxWidth baseIndent firstLineOffset =
        some [⟨baseIndent.toNat, s⟩] ∧
      ((baseIndent.toNat : Nat) : Int) = baseIndent ∧
      spacePrint fuel os s maxWidth baseIndent firstLineOffset =
        some (os ++ (List.replicate baseIndent.toNat ' ' ++ s ++ ['\n'])) := by
  have hcond : ¬ ((s.length : Int) + baseIndent > maxWidth ∧ maxWidth > 0) := by omega
  refine ⟨spacePrintLines_fits _ _ _ _ _ hcond, Int.toNat_of_nonneg hbi, ?_⟩
  rw [spacePrint, spacePrintLines_fits _ _ _ _ _ hcond]
  simp [renderLines, Line.render]

/-- Witness for C3: a text that fits, and a non-positive width. -/
theorem spacePrint_single_line_witness :
    (spacePrintLines 0 "-- OR --".toList 80 9 0 = some [⟨(9 : Int).toNat, "-- OR --".toList⟩] ∧
      (((9 : Int).toNat : Nat) : Int) = 9 ∧
      spacePrint 0 [] "-- OR --".toList 80 9 0 =
        some ([] ++ (List.replicate (9 : Int).toNat ' ' ++ "-- OR --".toList ++ ['\n']))) :=
  spacePrint_single_line 0 [] "-- OR --".toList 80 9 0 (by decide) (Or.inr (by decide))

/-- C4. Under the hypotheses of C1, no line after the first has content that
begins with a space; and every iteration of the loop, whatever made its cut,
leaves the cursor just past the run of spaces that follows the text it wrote
(everything between that text and the new cursor is a space, and the character
under the new cursor is not). -/
theorem spacePrint_no_leading_space (s : Str) (maxWidth baseIndent firstLineOffset : Int)
    (fuel : Nat) (hmw : 0 < maxWidth) (hbi : 0 ≤ baseIndent) (hoff : 0 ≤ firstLineOffset)
    (hlt : baseIndent + firstLineOffset < maxWidth) (hfuel : s.length ≤ fuel) :
    (∃ ls, spacePrintLines fuel s maxWidth baseIndent firstLineOffset = some ls ∧
      ∀ l ∈ ls.tail, l.content.head? ≠ some ' ') ∧
    (∀ (p A : Nat) (ind : Int), p < s.length → 0 < A →
      ∃ (l : Line) (st : WrapState),
        spacePrintIter s firstLineOffset ⟨(p : Int), ind, (A : Int)⟩ = some (l, st) ∧
        (p : Int) + (l.content.length : Int) ≤ st.start ∧ st.start ≤ (s.length : Int) ∧
        strAt s st.start ≠ some ' ' ∧
        ∀ j : Nat, p + l.content.length ≤ j → (j : Int) < st.start → strAt s (j : Int) = some ' ') := by
  constructor
  · lift maxWidth to Nat using le_of_lt hmw with mw
    lift baseIndent to Nat using hbi with ind
    lift firstLineOffset to Nat using hoff with off
    have hw : ind + off < mw := by omega
    by_cases hlong : mw < s.length + ind
    · obtain ⟨L, n, q, ls, hls, hf, hwr⟩ := spacePrintLines_wrap s mw ind off hlong hw fuel hfuel
      obtain ⟨_, _, _, _, _, _, _, hq, _⟩ := hf
      exact ⟨_, hls, by simpa using hwr.no_leading_space hq⟩
    · have hcond : ¬ ((s.length : Int) + (ind : Int) > (mw : Int) ∧ (mw : Int) > 0) := by omega
      exact ⟨[⟨ind, s⟩], by rw [spacePrintLines_fits _ _ _ _ _ hcond]; simp, by simp⟩
  · intro p A ind hp hA
    obtain ⟨L, n, q, hit, hn1, hn2, hL, hpL, hq1, hq2, hsp, hq, _⟩ :=
      spacePrintIter_spec s firstLineOffset p A ind hp hA
    have hlen : ((s.drop p).take n).length = n := by
      simp only [List.length_take, List.length_drop]; omega
    refine ⟨_, _, hit, ?_, ?_, ?_, ?_⟩
    · simp only [hlen]; push_cast; omega
    · simp only; push_cast; omega
    · simp only
      rw [strAt_nat s (q + n) hq2]
      intro h
      exact hq (Option.some.inj h)
    · intro j hj1 hj2
      simp only [hlen] at hj1
      simp only at hj2
      have hj3 : j < q + n := by exact_mod_cast hj2
      rw [strAt_nat s j (by omega)]
      have := hsp (j - n) (by omega) (by omega)
      rw [Nat.sub_add_cancel (by omega)] at this
      rw [this]

/-- Witness for C4: a text with a run of three spaces at the first cut. -/
theorem spacePrint_no_leading_space_witness :
    (∃ ls, spacePrintLines 9 "ab   cd e".toList 3 0 0 = some ls ∧
      ∀ l ∈ ls.tail, l.content.head? ≠ some ' ') ∧
    (∀ (p A : Nat) (ind : Int), p < "ab   cd e".toList.length → 0 < A →
      ∃ (l : Line) (st : WrapState),
        spacePrintIter "ab   cd e".toList 0 ⟨(p : Int), ind, (A : Int)⟩ = some (l, st) ∧
        (p : Int) + (l.content.length : Int) ≤ st.start ∧
        st.start ≤ ("ab   cd e".toList.length : Int) ∧
        strAt "ab   cd e".toList st.start ≠ some ' ' ∧
        ∀ j : Nat, p + l.content.length ≤ j → (j : Int) < st.start →
          strAt "ab   cd e".toList (j : Int) = some ' ') :=
  spacePrint_no_leading_space "ab   cd e".toList 3 0 0 9 (by decide) (by decide) (by decide)
    (by decide) (by decide)

/-! ## Claims about `shortUsage` and `longUsage` -/

/-- C5. When every exclusive group has at least one member, the string
`shortUsage` composes and hands to `spacePrint` is the program path, then
`" [OPTIONS]"`, then for each group in order `" {"`, the members' short
identifiers joined by `"|"` and `"}"`, then for each argument in registry order
that is in no group and not ignoreable a space and its short identifier.  A
group whose short identifiers contain none of `{`, `}`, `|` contributes exactly
one `{`, one `}` and `n - 1` pipes; and one group of `-a`, `-b` with a
standalone `-c` gives `"<path> [OPTIONS] {-a|-b} -c"`. -/
theorem shortUsage_composition (c : CmdLineInterface)
    (hgrp : ∀ grp ∈ c.xorList, 1 ≤ grp.length) :
    shortUsageText c = specShortUsage c ∧
    (∀ fuel os, shortUsage fuel c os = spacePrint fuel os (specShortUsage c) 80 0 5) ∧
    (∀ grp ∈ c.xorList, (∀ a ∈ grp, '{' ∉ a.shortID ∧ '}' ∉ a.shortID ∧ '|' ∉ a.shortID) →
      List.count '{' (specGroupSynopsis grp) = 1 ∧ List.count '}' (specGroupSynopsis grp) = 1 ∧
      List.count '|' (specGroupSynopsis grp) = grp.length - 1) ∧
    (∀ (path : Str) (a b d : Arg) (name ver auth msg : Str) (hv : Bool),
      a.shortID = "-a".toList → b.shortID = "-b".toList → d.shortID = "-c".toList →
      d.addr ≠ a.addr → d.addr ≠ b.addr → d.ignoreable = false →
      shortUsageText ⟨[a, b, d], [[a, b]], path, name, ver, auth, msg, hv⟩ =
        path ++ " [OPTIONS] \x7b-a|-b\x7d -c".toList) := by
  have hne : ∀ grp ∈ c.xorList, grp ≠ [] := by
    intro grp hg h
    have := hgrp grp hg
    rw [h] at this
    simp at this
  have heq : shortUsageText c = specShortUsage c := by
    unfold shortUsageText specShortUsage
    rw [shortUsageRest_eq, shortUsageXor_eq _ hne]
    rfl
  refine ⟨heq, ?_, ?_, ?_⟩
  · intro fuel os
    rw [shortUsage, heq]
  · intro grp hg hch
    have hids : grp.map Arg.shortID ≠ [] := by simpa using hne grp hg
    have hlen : (grp.map Arg.shortID).length = grp.length := List.length_map _ _
    have hb1 : ∀ x ∈ grp.map Arg.shortID, '{' ∉ x := by
      intro x hx
      obtain ⟨a, ha, rfl⟩ := List.mem_map.mp hx
      exact (hch a ha).1
    have hb2 : ∀ x ∈ grp.map Arg.shortID, '}' ∉ x := by
      intro x hx
      obtain ⟨a, ha, rfl⟩ := List.mem_map.mp hx
      exact (hch a ha).2.1
    have hb3 : ∀ x ∈ grp.map Arg.shortID, '|' ∉ x := by
      intro x hx
      obtain ⟨a, ha, rfl⟩ := List.mem_map.mp hx
      exact (hch a ha).2.2
    have e : "|".toList = ['|'] := rfl
    have c1 := count_intercalate '{' '|' _ hids hb1
    have c2 := count_intercalate '}' '|' _ hids hb2
    have c3 := count_intercalate '|' '|' _ hids hb3
    rw [if_neg (by decide)] at c1 c2
    rw [if_pos rfl, hlen] at c3
    unfold specGroupSynopsis
    rw [e]
    simp only [List.count_append, c1, c2, c3]
    have k1 : List.count '|' " \x7b".toList = 0 := by decide
    have k2 : List.count '|' "\x7d".toList = 0 := by decide
    refine ⟨by decide, by decide, ?_⟩
    rw [k1, k2]
    omega
  · intro path a b d name ver auth msg hv ha hb hd hda hdb hdi
    unfold shortUsageText
    rw [shortUsageRest_eq, shortUsageXor_eq _ (by simp)]
    have hxa : xorContains [[a, b]] a = true := by simp [xorContains]
    have hxb : xorContains [[a, b]] b = true := by simp [xorContains]
    have hxd : xorContains [[a, b]] d = false := by
      simp [xorContains]
      exact ⟨fun h => hda h.symm, fun h => hdb h.symm⟩
    simp [List.filter_cons, hxa, hxb, hxd, hdi, ha, hb, hd, List.intercalate, List.intersperse]

/-- Witness for C5: the sample registry, whose only group has two members. -/
theorem shortUsage_composition_witness :
    (∀ grp ∈ sampleCmd.xorList, 1 ≤ grp.length) ∧
      shortUsageText sampleCmd = specShortUsage sampleCmd :=
  ⟨by decide, (shortUsage_composition sampleCmd (by decide)).1⟩

/-- C6. For an exclusive group of `n ≥ 1` members (and fuel for the longest
composed line), the inner loop of `longUsage` writes the members' description
blocks in group order, each followed by a blank line, with exactly `n - 1`
separators between them, each separator being the line of nine spaces and
`-- OR --` (as `spacePrint(os, "-- OR --", 80, 9, 0)` writes it) followed by a
blank line; nothing but a blank line follows the last member's block. -/
theorem longUsage_group_separators (fuel : Nat) (grp : List Arg) (hn : 1 ≤ grp.length)
    (hfuel : ∀ a ∈ grp, (descLine a).length ≤ fuel) :
    ∃ bs : List Str, bs.length = grp.length ∧ Blocks fuel grp bs ∧
      (∀ os, spacePrint fuel os "-- OR --".toList 80 9 0 =
        some (os ++ (List.replicate 9 ' ' ++ "-- OR --".toList ++ ['\n']))) ∧
      (∀ os, longUsageGroup fuel grp os =
        some (os ++ ((((bs.map fun b => b ++ ['\n']).intersperse
          (List.replicate 9 ' ' ++ "-- OR --".toList ++ ['\n'] ++ ['\n'])).flatten) ++ ['\n']))) ∧
      ((bs.map fun b => b ++ ['\n']).intersperse
          (List.replicate 9 ' ' ++ "-- OR --".toList ++ ['\n'] ++ ['\n'])).length =
        grp.length + (grp.length - 1) := by
  have hne : grp ≠ [] := by
    intro h
    rw [h] at hn
    simp at hn
  obtain ⟨bs, hbs, hout⟩ := longUsageGroup_spec fuel grp hne hfuel
  have hlen : bs.length = grp.length := (List.Forall₂.length_eq hbs).symm
  refine ⟨bs, hlen, hbs, fun os => spacePrint_separator fuel os, ?_, ?_⟩
  · intro os
    rw [hout os]
    rfl
  · rw [length_intersperse_sep, List.length_map, hlen]
    omega

/-- Witness for C6: the group of the sample registry. -/
theorem longUsage_group_separators_witness :
    ∃ bs : List Str, bs.length = [sampleA, sampleB].length ∧ Blocks 100 [sampleA, sampleB] bs ∧
      (∀ os, spacePrint 100 os "-- OR --".toList 80 9 0 =
        some (os ++ (List.replicate 9 ' ' ++ "-- OR --".toList ++ ['\n']))) ∧
      (∀ os, longUsageGroup 100 [sampleA, sampleB] os =
        some (os ++ ((((bs.map fun b => b ++ ['\n']).intersperse
          (List.replicate 9 ' ' ++ "-- OR --".toList ++ ['\n'] ++ ['\n'])).flatten) ++ ['\n']))) ∧
      ((bs.map fun b => b ++ ['\n']).intersperse
          (List.replicate 9 ' ' ++ "-- OR --".toList ++ ['\n'] ++ ['\n'])).length =
        [sampleA, sampleB].length + ([sampleA, sampleB].length - 1) :=
  longUsage_group_separators 100 [sampleA, sampleB] (by decide) (by decide)

/-- C8. The padding `longUsage` inserts between `longID` and the description
is `max(35 - length(longID), 2)` spaces: never fewer than 2, exactly 2 for a
40-character `longID`, and for `length(longID) ≤ 33` just enough for the
description to start at offset 35 of the composed line. -/
theorem longUsage_padding (a : Arg) :
    descLine a = a.longID ++ List.replicate (spacing a.longID).toNat ' ' ++ a.description ∧
    spacing a.longID = max (35 - (a.longID.length : Int)) 2 ∧
    2 ≤ spacing a.longID ∧
    (a.longID.length = 40 → spacing a.longID = 2) ∧
    (a.longID.length ≤ 33 →
      a.longID.length + (spacing a.longID).toNat = 35 ∧
      (descLine a).take 35 = a.longID ++ List.replicate (35 - a.longID.length) ' ' ∧
      (descLine a).drop 35 = a.description) := by
  have h2 : 2 ≤ spacing a.longID := by unfold spacing; omega
  refine ⟨rfl, rfl, h2, ?_, ?_⟩
  · intro h; unfold spacing; omega
  · intro h
    have e : (spacing a.longID).toNat = 35 - a.longID.length := by unfold spacing; omega
    have hl : (a.longID ++ List.replicate (35 - a.longID.length) ' ').length = 35 := by
      simp only [List.length_append, List.length_replicate]; omega
    refine ⟨by omega, ?_, ?_⟩
    · unfold descLine
      rw [e, List.take_left' hl]
    · unfold descLine
      rw [e, List.drop_left' hl]

/-- C7, counterexample. The composed line of the first sample argument is
wrapped into two lines, and the second is indented by 37 spaces, not 35:
`longUsage` passes `secondLineOffset = 35` to `spacePrint`, not 33, and what it
writes differs from the result of wrapping with offset 33.  And the
continuation lines are not under the description for every argument: for the
sample argument with a long identifier of 42 characters the padding is 2, the
description starts at offset 44 of the composed line, hence at column 46 of
the output, while the continuation line is indented by 37. -/
theorem longUsage_offset_counterexample :
    (spacePrintLines 94 (descLine sampleA) 80 2 35 =
        some [⟨2, "-a,  --alpha                       first of two alternatives, described at".toList⟩,
              ⟨37, "some length to wrap".toList⟩] ∧
      longUsageArg 94 [] sampleA ≠ spacePrint 94 [] (descLine sampleA) 80 2 33 ∧
      longUsage 94 ⟨[sampleA], [], [], [], [], [], [], true⟩ [] ≠
        (spacePrint 94 [] (descLine sampleA) 80 2 33).map fun out => out ++ ['\n']) ∧
    (sampleLong.longID.length = 42 ∧ spacing sampleLong.longID = 2 ∧
      (descLine sampleLong).drop 44 = sampleLong.description ∧
      (descLine sampleLong).drop 35 ≠ sampleLong.description ∧
      spacePrintLines 108 (descLine sampleLong) 80 2 35 =
        some [⟨2, "-x <level>,  --extremely-long-name <level>  sets the level of detail that is".toList⟩,
              ⟨37, "used when the report is written".toList⟩]) := by
  decide

/-- C7, amended. Every argument listed by `longUsage` has its composed line
wrapped with `maxWidth = 80`, `baseIndent = 2`, `firstLineOffset = 35`: given
fuel for the length of that line, the first line written is indented by 2
spaces and holds a prefix of the composed line, and every continuation line is
indented by exactly `2 + 35 = 37` spaces.  Whenever `longID` has at most 33
characters this is the description column: the composed line is `longID`
padded to 35 characters followed by the description, so on the first line,
after its 2 indent spaces, the description starts at column 37. -/
theorem longUsage_continuation_indent (fuel : Nat) (a : Arg)
    (hfuel : (descLine a).length ≤ fuel) :
    ∃ (first : Line) (rest : List Line),
      spacePrintLines fuel (descLine a) 80 2 35 = some (first :: rest) ∧
      (∀ os, longUsageArg fuel os a = some (os ++ renderLines (first :: rest))) ∧
      first.indent = 2 ∧ (∀ l ∈ rest, l.indent = 37) ∧
      first.content <+: descLine a ∧
      (a.longID.length ≤ 33 →
        ∃ label : Str, label = a.longID ++ List.replicate (35 - a.longID.length) ' ' ∧
          label.length = 35 ∧ descLine a = label ++ a.description ∧
          first.content <+: label ++ a.description ∧
          ∀ l ∈ rest, l.indent = first.indent + label.length) := by
  obtain ⟨first, rest, h, h1, h2, h3⟩ :=
    spacePrintLines_first (descLine a) 80 2 35 (by decide) fuel hfuel
  refine ⟨first, rest, h, ?_, h1, h2, h3, ?_⟩
  · intro os
    have h' : spacePrintLines fuel (descLine a) 80 2 35 = some (first :: rest) := h
    rw [longUsageArg, spacePrint, h']
    rfl
  · intro hlen
    have e : (spacing a.longID).toNat = 35 - a.longID.length := by unfold spacing; omega
    have hl : (a.longID ++ List.replicate (35 - a.longID.length) ' ').length = 35 := by
      simp only [List.length_append, List.length_replicate]; omega
    have hd : descLine a = (a.longID ++ List.replicate (35 - a.longID.length) ' ') ++
        a.description := by
      unfold descLine
      rw [e]
    refine ⟨_, rfl, hl, hd, ?_, ?_⟩
    · rw [← hd]
      exact h3
    · intro l hl1
      rw [h2 l hl1, h1, hl]

/-- Witness for the amended C7: the first sample argument. -/
theorem longUsage_continuation_indent_witness :
    ∃ (first : Line) (rest : List Line),
      spacePrintLines 94 (descLine sampleA) 80 2 35 = some (first :: rest) ∧
      (∀ os, longUsageArg 94 os sampleA = some (os ++ renderLines (first :: rest))) ∧
      first.indent = 2 ∧ (∀ l ∈ rest, l.indent = 37) ∧
      first.content <+: descLine sampleA ∧
      (sampleA.longID.length ≤ 33 →
        ∃ label : Str,
          label = sampleA.longID ++ List.replicate (35 - sampleA.longID.length) ' ' ∧
          label.length = 35 ∧ descLine sampleA = label ++ sampleA.description ∧
          first.content <+: label ++ sampleA.description ∧
          ∀ l ∈ rest, l.indent = first.indent + label.length) :=
  longUsage_continuation_indent 94 sampleA (by decide)

/-- C10. Given fuel for the longest text of the registry, `failure` writes
`error: <argId>` and `       <message>` (and a blank line) to the error stream
and ends by throwing `ExitException(1)`; it never returns normally.  With
`hasHelpAndVersion` the error stream then holds `Usage: `, the short synopsis
and the pointer to `<programPath> --help`, and nothing of `longUsage` is
written anywhere; without it the whole `usage()` block (message, synopsis and
option listing) is written, to standard output, and the error stream holds
the two error lines only. -/
theorem failure_output (fuel : Nat) (c : CmdLineInterface) (e : ArgException) (io : Streams)
    (hfuel : fuelBound c ≤ fuel) :
    ∃ msgOut shortOut longOut : Str,
      (∀ os, spacePrint fuel os c.message 80 0 0 = some (os ++ msgOut)) ∧
      (∀ os, shortUsage fuel c os = some (os ++ shortOut)) ∧
      (∀ os, longUsage fuel c os = some (os ++ longOut)) ∧
      (∀ os, usage fuel c os =
        some (os ++ msgOut ++ ['\n'] ++ "Usage: ".toList ++ shortOut ++ ['\n'] ++
          "Options: ".toList ++ ['\n'] ++ longOut)) ∧
      failure fuel c e io =
        some ((if c.hasHelpAndVersion = true then
            (⟨io.cout,
              io.cerr ++ "error: ".toList ++ e.argId ++ ['\n'] ++ "       ".toList ++ e.error ++
                ['\n'] ++ ['\n'] ++ "Usage: ".toList ++ shortOut ++ ['\n'] ++
                "For complete USAGE and HELP type: ".toList ++ ['\n'] ++ "   ".toList ++
                c.programPath ++ " --help".toList ++ ['\n'] ++ ['\n']⟩ : Streams)
          else
            (⟨io.cout ++ msgOut ++ ['\n'] ++ "Usage: ".toList ++ shortOut ++ ['\n'] ++
                "Options: ".toList ++ ['\n'] ++ longOut,
              io.cerr ++ "error: ".toList ++ e.argId ++ ['\n'] ++ "       ".toList ++ e.error ++
                ['\n'] ++ ['\n']⟩ : Streams)),
          Completion.exitException 1) ∧
      ∀ (fuel1 : Nat) (r : Streams × Completion),
        failure fuel1 c e io = some r → r.2 = Completion.exitException 1 := by
  obtain ⟨msgOut, hm⟩ := spacePrint_total c.message 80 0 0 (by decide) fuel
    (le_trans (fuelBound_message c) hfuel)
  obtain ⟨shortOut, hs⟩ := spacePrint_total (shortUsageText c) 80 0 5 (by decide) fuel
    (le_trans (fuelBound_short c) hfuel)
  obtain ⟨xorOut, hx⟩ := longUsageXor_total fuel c.xorList
    (fun g hg a ha => le_trans (fuelBound_member c g hg a ha) hfuel)
  obtain ⟨bs, _, hr⟩ := longUsageRest_spec fuel c.xorList c.argList
    (fun a ha => le_trans (fuelBound_arg c a ha) hfuel)
  have hl : ∀ os, longUsage fuel c os =
      some (os ++ (xorOut ++ (bs.map fun b => b ++ ['\n']).flatten)) := by
    intro os
    rw [longUsage, hx, Option.some_bind, hr, List.append_assoc]
  have hs' : ∀ os, shortUsage fuel c os = some (os ++ shortOut) := fun os => hs os
  have hu : ∀ os, usage fuel c os =
      some (os ++ msgOut ++ ['\n'] ++ "Usage: ".toList ++ shortOut ++ ['\n'] ++
        "Options: ".toList ++ ['\n'] ++ (xorOut ++ (bs.map fun b => b ++ ['\n']).flatten)) := by
    intro os
    have hm' : spacePrint fuel os c.message 80 0 0 = some (os ++ msgOut) := hm os
    rw [usage, hm', Option.some_bind, hs', Option.some_bind, hl]
  refine ⟨msgOut, shortOut, _, hm, hs', hl, hu, ?_, ?_⟩
  · by_cases hh : c.hasHelpAndVersion = true
    · rw [failure, if_pos hh, if_pos hh, hs']
      rfl
    · rw [failure, if_neg hh, if_neg hh, hu]
      rfl
  · intro fuel1 r hr1
    unfold failure at hr1
    simp only [Option.map_eq_some'] at hr1
    obtain ⟨io1, _, rfl⟩ := hr1
    rfl

/-- Witness for C10: the sample registry, whose longest text has 94
characters. -/
theorem failure_output_witness :
    fuelBound sampleCmd ≤ 94 ∧
    ∃ r, failure 94 sampleCmd ⟨"Argument: x".toList, "bad value".toList⟩ ⟨[], []⟩ =
      some (r, Completion.exitException 1) := by
  refine ⟨by decide, ?_⟩
  obtain ⟨msgOut, shortOut, longOut, _, _, _, _, h, _⟩ :=
    failure_output 94 sampleCmd ⟨"Argument: x".toList, "bad value".toList⟩ ⟨[], []⟩ (by decide)
  exact ⟨_, h⟩

/-! ## The recorded run -/

/-- The lines of the loop are those of the recorded run. -/
theorem spacePrintRun_lines (s : Str) (off : Int) :
    ∀ (fuel : Nat) (st : WrapState),
      spacePrintLoop s off fuel st =
        (spacePrintRun s off fuel st).map fun t => t.1.map Prod.snd := by
  intro fuel
  induction fuel with
  | zero =>
    intro st
    by_cases h : st.start < (s.length : Int) <;> simp [spacePrintLoop, spacePrintRun, h]
  | succ fuel ih =>
    intro st
    by_cases h : st.start < (s.length : Int)
    · rw [spacePrintLoop, spacePrintRun, if_pos h, if_pos h]
      cases hit : spacePrintIter s off st with
      | none => simp
      | some r =>
        simp only [Option.some_bind, ih r.2]
        cases spacePrintRun s off fuel r.2 <;> simp
    · simp [spacePrintLoop, spacePrintRun, h]

/-- One recorded iteration from a cursor `p` inside the text with
`allowedLen = A > 0`. -/
theorem spacePrintIter_entry (s : Str) (off : Int) (p A : Nat) (ind : Int)
    (hp : p < s.length) (hA : 0 < A) :
    ∃ (l : Line) (p1 : Nat), p < p1 ∧ p1 ≤ s.length ∧
      spacePrintIter s off ⟨(p : Int), ind, (A : Int)⟩ =
        some (l, ⟨(p1 : Int), if (p : Int) = 0 then ind + off else ind,
          if (p : Int) = 0 then (A : Int) - off else (A : Int)⟩) ∧
      l.indent = ind.toNat ∧ l.content.length ≤ A := by
  obtain ⟨L, n, q, hit, hn1, hn2, hL, hpL, hq1, hq2, _⟩ := spacePrintIter_spec s off p A ind hp hA
  refine ⟨_, q + n, by omega, hq2, hit, rfl, ?_⟩
  simp only [List.length_take, List.length_drop]
  omega

/-- After the first iteration the recorded run ends with the cursor at the end
of the text, after at most `len - start` iterations, all of them at the same
indent and `allowedLen`, with strictly increasing cursors. -/
theorem spacePrintRun_tail (s : Str) (off : Int) (ind : Int) (A : Nat) (hA : 0 < A) :
    ∀ (fuel p : Nat), 1 ≤ p → p ≤ s.length → s.length ≤ p + fuel →
      ∃ tr, spacePrintRun s off fuel ⟨(p : Int), ind, (A : Int)⟩ =
          some (tr, ⟨(s.length : Int), ind, (A : Int)⟩) ∧
        tr.length ≤ s.length - p ∧ (∀ e ∈ tr, Entry s off p ind A e) ∧
        tr.Pairwise fun a b => a.1.start < b.1.start := by
  intro fuel
  induction fuel with
  | zero =>
    intro p _ hple h
    have hpe : p = s.length := by omega
    subst hpe
    exact ⟨[], by simp [spacePrintRun], by simp, by simp, List.Pairwise.nil⟩
  | succ fuel ih =>
    intro p hp1 hple h
    by_cases hlt : p < s.length
    · obtain ⟨l, p1, hp1lt, hp1le, hit, hl1, hl2⟩ := spacePrintIter_entry s off p A ind hlt hA
      have hp0 : ¬ ((p : Int) = 0) := by omega
      rw [if_neg hp0, if_neg hp0] at hit
      obtain ⟨tr, htr, hlen, hent, hpw⟩ := ih p1 (by omega) hp1le (by omega)
      have hlt1 : (p : Int) < (s.length : Int) := by omega
      refine ⟨(⟨(p : Int), ind, (A : Int)⟩, l) :: tr, ?_, ?_, ?_, ?_⟩
      · rw [spacePrintRun, if_pos hlt1, hit]
        simp only [Option.some_bind, htr, Option.map_some']
      · simp only [List.length_cons]; omega
      · intro e he
        rcases List.mem_cons.mp he with rfl | he
        · exact ⟨le_refl _, hlt1, rfl, rfl, hl1, hl2, _, hit, by simp only; omega,
            by simp only; omega⟩
        · obtain ⟨h1, h2⟩ := hent e he
          exact ⟨by omega, h2⟩
      · refine List.Pairwise.cons ?_ hpw
        intro e he
        have := (hent e he).1
        simp only
        omega
    · have hpe : p = s.length := by omega
      subst hpe
      exact ⟨[], by simp [spacePrintRun], by simp, by simp, List.Pairwise.nil⟩

/-- The recorded run of the wrapping loop from the cursor 0, for
`ind + off < mw`: it ends with the cursor at the end of the text after at most
`len` iterations with strictly increasing cursors; the first iteration is
entered with indent `ind` and `allowedLen = mw - ind`, every other one with
indent `ind + off` and `allowedLen = mw - ind - off`, and a cursor past 0. -/
theorem spacePrintRun_wrap (s : Str) (mw ind off : Nat) (hw : ind + off < mw)
    (fuel : Nat) (hfuel : s.length ≤ fuel) :
    ∃ (tr : List (WrapState × Line)) (stEnd : WrapState),
      spacePrintRun s (off : Int) fuel ⟨0, (ind : Int), (mw : Int) - (ind : Int)⟩ =
        some (tr, stEnd) ∧
      stEnd.start = (s.length : Int) ∧ tr.length ≤ s.length ∧ (0 < s.length → tr ≠ []) ∧
      (tr.Pairwise fun a b => a.1.start < b.1.start) ∧
      (∀ e ∈ tr.take 1,
        e.1 = ⟨0, (ind : Int), (mw : Int) - (ind : Int)⟩ ∧ Entry s off 0 ind (mw - ind) e) ∧
      (∀ e ∈ tr.drop 1, Entry s off 1 ((ind : Int) + (off : Int)) (mw - ind - off) e) := by
  have e1 : (mw : Int) - (ind : Int) = ((mw - ind : Nat) : Int) := by omega
  have e2 : ((mw - ind : Nat) : Int) - (off : Int) = ((mw - ind - off : Nat) : Int) := by omega
  by_cases hlen : 0 < s.length
  · obtain ⟨l, p1, hp1lt, hp1le, hit, hl1, hl2⟩ :=
      spacePrintIter_entry s (off : Int) 0 (mw - ind) (ind : Int) hlen (by omega)
    obtain ⟨fuel1, rfl⟩ : ∃ f, fuel = f + 1 := ⟨fuel - 1, by omega⟩
    simp only [Nat.cast_zero, if_true] at hit
    obtain ⟨tr, htr, hlen1, hent, hpw⟩ := spacePrintRun_tail s (off : Int)
      ((ind : Int) + (off : Int)) (mw - ind - off) (by omega) fuel1 p1 (by omega) hp1le (by omega)
    have hlt0 : (0 : Int) < (s.length : Int) := by omega
    refine ⟨(⟨0, (ind : Int), (mw : Int) - (ind : Int)⟩, l) :: tr,
      ⟨(s.length : Int), (ind : Int) + (off : Int), ((mw - ind - off : Nat) : Int)⟩,
      ?_, rfl, ?_, by simp, ?_, ?_, ?_⟩
    · rw [spacePrintRun, if_pos hlt0, e1, hit]
      simp only [Option.some_bind, e2, htr, Option.map_some']
    · simp only [List.length_cons]; omega
    · refine List.Pairwise.cons ?_ hpw
      intro e he
      have := (hent e he).1
      simp only
      omega
    · intro e he
      simp only [List.take_succ_cons, List.take_zero, List.mem_singleton] at he
      subst he
      refine ⟨rfl, ?_⟩
      rw [e1]
      exact ⟨by simp, hlt0, rfl, rfl, hl1, hl2, _, hit, by simp only; omega, by simp only; omega⟩
    · intro e he
      simp only [List.drop_succ_cons, List.drop_zero] at he
      obtain ⟨h1, h2⟩ := hent e he
      exact ⟨by omega, h2⟩
  · have h0 : s.length = 0 := by omega
    have hnlt : ¬ ((0 : Int) < (s.length : Int)) := by omega
    refine ⟨[], ⟨0, (ind : Int), (mw : Int) - (ind : Int)⟩, ?_, by simp [h0], by simp,
      fun h => absurd h hlen, by simp, by simp, by simp⟩
    cases fuel <;> simp [spacePrintRun, hnlt]

/-! ## Further claims about `spacePrint` -/

/-- C11, counterexample. With `maxWidth = 5` and `baseIndent = 10` the empty
text enters the wrapping path, whose loop does not run at all: no line is
emitted and nothing is written, where the claim has one line of ten spaces. -/
theorem spacePrint_empty_counterexample :
    spacePrintLines 1 [] 5 10 0 = some [] ∧
    spacePrint 1 [] [] 5 10 0 = some [] ∧
    spacePrint 1 [] [] 5 10 0 ≠ some (List.replicate 10 ' ' ++ ['\n']) := by
  decide

/-- C11, amended. For `baseIndent ≥ 0` and any `firstLineOffset`: when
`maxWidth ≤ 0` or `baseIndent ≤ maxWidth`, `spacePrint` applied to the empty
text emits exactly one line, `baseIndent` spaces and nothing else; when
`0 < maxWidth < baseIndent` it emits no line and writes nothing. -/
theorem spacePrint_empty (fuel : Nat) (os : Str) (maxWidth baseIndent firstLineOffset : Int)
    (hbi : 0 ≤ baseIndent) :
    (maxWidth ≤ 0 ∨ baseIndent ≤ maxWidth →
      spacePrintLines fuel [] maxWidth baseIndent firstLineOffset =
          some [⟨baseIndent.toNat, []⟩] ∧
        ((baseIndent.toNat : Nat) : Int) = baseIndent ∧
        spacePrint fuel os [] maxWidth baseIndent firstLineOffset =
          some (os ++ (List.replicate baseIndent.toNat ' ' ++ ['\n']))) ∧
    (0 < maxWidth → maxWidth < baseIndent →
      spacePrintLines fuel [] maxWidth baseIndent firstLineOffset = some [] ∧
        spacePrint fuel os [] maxWidth baseIndent firstLineOffset = some os) := by
  constructor
  · intro h
    have hcond : ¬ ((([] : Str).length : Int) + baseIndent > maxWidth ∧ maxWidth > 0) := by
      simp only [List.length_nil, Nat.cast_zero]; omega
    refine ⟨spacePrintLines_fits _ _ _ _ _ hcond, Int.toNat_of_nonneg hbi, ?_⟩
    rw [spacePrint, spacePrintLines_fits _ _ _ _ _ hcond]
    simp [renderLines, Line.render]
  · intro h1 h2
    have hcond : (([] : Str).length : Int) + baseIndent > maxWidth ∧ maxWidth > 0 := by
      simp only [List.length_nil, Nat.cast_zero]; omega
    have hl : spacePrintLines fuel [] maxWidth baseIndent firstLineOffset = some [] := by
      rw [spacePrintLines, if_pos hcond]
      cases fuel <;> simp [spacePrintLoop]
    refine ⟨hl, ?_⟩
    rw [spacePrint, hl]
    simp [renderLines]

/-- Witness for the amended C11: indent 3 at width 5. -/
theorem spacePrint_empty_witness :
    spacePrintLines 0 [] 5 3 7 = some [⟨(3 : Int).toNat, []⟩] ∧
      (((3 : Int).toNat : Nat) : Int) = 3 ∧
      spacePrint 0 [] [] 5 3 7 = some ([] ++ (List.replicate (3 : Int).toNat ' ' ++ ['\n'])) :=
  (spacePrint_empty 0 [] 5 3 7 (by decide)).1 (Or.inr (by decide))

/-- C13. For `maxWidth > 0`, `baseIndent ≥ 0`, `firstLineOffset ≥ 0` and
`baseIndent + firstLineOffset < maxWidth`, the wrapping loop run with fuel for
`length s` iterations terminates without an undefined read: every iteration
moves the cursor strictly forward, the cursors of successive iterations
increase strictly, there are at most `length s` iterations, and the loop is
left with the cursor at the end of the text. -/
theorem spacePrint_loop_terminates (s : Str) (maxWidth baseIndent firstLineOffset : Int)
    (fuel : Nat) (hmw : 0 < maxWidth) (hbi : 0 ≤ baseIndent) (hoff : 0 ≤ firstLineOffset)
    (hlt : baseIndent + firstLineOffset < maxWidth) (hfuel : s.length ≤ fuel) :
    ∃ (tr : List (WrapState × Line)) (stEnd : WrapState),
      spacePrintRun s firstLineOffset fuel ⟨0, baseIndent, maxWidth - baseIndent⟩ =
        some (tr, stEnd) ∧
      spacePrintLoop s firstLineOffset fuel ⟨0, baseIndent, maxWidth - baseIndent⟩ =
        some (tr.map Prod.snd) ∧
      (s.length : Int) ≤ stEnd.start ∧ tr.length ≤ s.length ∧
      (∀ e ∈ tr, ∃ st : WrapState, spacePrintIter s firstLineOffset e.1 = some (e.2, st) ∧
        e.1.start < st.start) ∧
      (tr.Pairwise fun a b => a.1.start < b.1.start) ∧
      ∃ ls, spacePrintLines fuel s maxWidth baseIndent firstLineOffset = some ls := by
  lift maxWidth to Nat using le_of_lt hmw with mw
  lift baseIndent to Nat using hbi with ind
  lift firstLineOffset to Nat using hoff with off
  have hw : ind + off < mw := by omega
  obtain ⟨tr, stEnd, hrun, hend, hlen, _, hpw, hhead, htail⟩ :=
    spacePrintRun_wrap s mw ind off hw fuel hfuel
  have hloop : spacePrintLoop s (off : Int) fuel ⟨0, (ind : Int), (mw : Int) - (ind : Int)⟩ =
      some (tr.map Prod.snd) := by
    rw [spacePrintRun_lines, hrun]
    rfl
  refine ⟨tr, stEnd, hrun, hloop, by omega, hlen, ?_, hpw, ?_⟩
  · intro e he
    have hsplit : e ∈ tr.take 1 ∨ e ∈ tr.drop 1 := by
      rw [← List.mem_append, List.take_append_drop]
      exact he
    rcases hsplit with h | h
    · obtain ⟨_, _, _, _, _, _, _, st, h1, h2, _⟩ := hhead e h
      exact ⟨st, h1, h2⟩
    · obtain ⟨_, _, _, _, _, _, st, h1, h2, _⟩ := htail e h
      exact ⟨st, h1, h2⟩
  · by_cases hc : (s.length : Int) + (ind : Int) > (mw : Int) ∧ (mw : Int) > 0
    · exact ⟨_, by rw [spacePrintLines, if_pos hc, hloop]⟩
    · exact ⟨_, spacePrintLines_fits _ _ _ _ _ hc⟩

/-- Witness for C13: a text of seven characters wrapped at width 4. -/
theorem spacePrint_loop_terminates_witness :
    ∃ (tr : List (WrapState × Line)) (stEnd : WrapState),
      spacePrintRun "ab cdefg".toList 1 8 ⟨0, 0, 4 - 0⟩ = some (tr, stEnd) ∧
      spacePrintLoop "ab cdefg".toList 1 8 ⟨0, 0, 4 - 0⟩ = some (tr.map Prod.snd) ∧
      ("ab cdefg".toList.length : Int) ≤ stEnd.start ∧ tr.length ≤ "ab cdefg".toList.length ∧
      (∀ e ∈ tr, ∃ st : WrapState, spacePrintIter "ab cdefg".toList 1 e.1 = some (e.2, st) ∧
        e.1.start < st.start) ∧
      (tr.Pairwise fun a b => a.1.start < b.1.start) ∧
      ∃ ls, spacePrintLines 8 "ab cdefg".toList 4 0 1 = some ls :=
  spacePrint_loop_terminates "ab cdefg".toList 4 0 1 8 (by decide) (by decide) (by decide)
    (by decide) (by decide)

/-- C15. In the wrapping path, for `maxWidth > 0`, `baseIndent ≥ 0`,
`firstLineOffset ≥ 0` and `baseIndent + firstLineOffset < maxWidth`, the offset
is applied exactly once: the first iteration is entered with cursor 0, writes
its line after exactly `baseIndent` spaces and cuts it with
`allowedLen = maxWidth - baseIndent`; every later iteration is entered with a
cursor past 0, writes its line after exactly `baseIndent + firstLineOffset`
spaces and cuts it with `allowedLen = maxWidth - baseIndent - firstLineOffset`. -/
theorem spacePrint_offset_once (s : Str) (maxWidth baseIndent firstLineOffset : Int)
    (fuel : Nat) (hmw : 0 < maxWidth) (hbi : 0 ≤ baseIndent) (hoff : 0 ≤ firstLineOffset)
    (hlt : baseIndent + firstLineOffset < maxWidth)
    (hlong : (s.length : Int) + baseIndent > maxWidth) (hfuel : s.length ≤ fuel) :
    ∃ (first : WrapState × Line) (rest : List (WrapState × Line)) (stEnd : WrapState),
      spacePrintRun s firstLineOffset fuel ⟨0, baseIndent, maxWidth - baseIndent⟩ =
        some (first :: rest, stEnd) ∧
      spacePrintLines fuel s maxWidth baseIndent firstLineOffset =
        some (first.2 :: rest.map Prod.snd) ∧
      first.1 = ⟨0, baseIndent, maxWidth - baseIndent⟩ ∧
      (first.2.indent : Int) = baseIndent ∧
      (first.2.content.length : Int) ≤ maxWidth - baseIndent ∧
      (∃ st : WrapState, spacePrintIter s firstLineOffset first.1 = some (first.2, st)) ∧
      ∀ e ∈ rest,
        0 < e.1.start ∧ e.1.indentSpaces = baseIndent + firstLineOffset ∧
        e.1.allowedLen = maxWidth - baseIndent - firstLineOffset ∧
        (e.2.indent : Int) = baseIndent + firstLineOffset ∧
        (e.2.content.length : Int) ≤ maxWidth - baseIndent - firstLineOffset ∧
        ∃ st : WrapState, spacePrintIter s firstLineOffset e.1 = some (e.2, st) := by
  lift maxWidth to Nat using le_of_lt hmw with mw
  lift baseIndent to Nat using hbi with ind
  lift firstLineOffset to Nat using hoff with off
  have hw : ind + off < mw := by omega
  obtain ⟨tr, stEnd, hrun, _, _, hne, _, hhead, htail⟩ :=
    spacePrintRun_wrap s mw ind off hw fuel hfuel
  obtain ⟨first, rest, rfl⟩ := List.exists_cons_of_ne_nil (hne (by omega))
  have hcond : (s.length : Int) + (ind : Int) > (mw : Int) ∧ (mw : Int) > 0 := ⟨hlong, by omega⟩
  obtain ⟨hst, _, _, _, _, hind, hcl, st, hit, _⟩ := hhead first (by simp)
  refine ⟨first, rest, stEnd, hrun, ?_, hst, ?_, ?_, ⟨st, hit⟩, ?_⟩
  · rw [spacePrintLines, if_pos hcond, spacePrintRun_lines, hrun]
    rfl
  · rw [hind]; simp
  · omega
  · intro e he
    obtain ⟨h1, _, h3, h4, h5, h6, st1, h7, _⟩ := htail e (by simpa using he)
    refine ⟨by omega, h3, by rw [h4]; omega, ?_, by omega, ⟨st1, h7⟩⟩
    rw [h5]
    omega

/-- Witness for C15: twelve characters at width 10, indent 1, offset 2. -/
theorem spacePrint_offset_once_witness :
    ∃ (first : WrapState × Line) (rest : List (WrapState × Line)) (stEnd : WrapState),
      spacePrintRun "hello, world".toList 2 12 ⟨0, 1, 10 - 1⟩ = some (first :: rest, stEnd) ∧
      spacePrintLines 12 "hello, world".toList 10 1 2 = some (first.2 :: rest.map Prod.snd) ∧
      first.1 = ⟨0, 1, 10 - 1⟩ ∧
      (first.2.indent : Int) = 1 ∧
      (first.2.content.length : Int) ≤ 10 - 1 ∧
      (∃ st : WrapState, spacePrintIter "hello, world".toList 2 first.1 = some (first.2, st)) ∧
      ∀ e ∈ rest,
        0 < e.1.start ∧ e.1.indentSpaces = 1 + 2 ∧
        e.1.allowedLen = 10 - 1 - 2 ∧
        (e.2.indent : Int) = 1 + 2 ∧
        (e.2.content.length : Int) ≤ 10 - 1 - 2 ∧
        ∃ st : WrapState, spacePrintIter "hello, world".toList 2 e.1 = some (e.2, st) :=
  spacePrint_offset_once "hello, world".toList 10 1 2 12 (by decide) (by decide) (by decide)
    (by decide) (by decide) (by decide)

/-! ## The cut of one iteration, by cases -/

/-- With `allowedLen ≤ 0` the length chosen is `allowedLen` itself. -/
theorem chooseLen_nonpos (s : Str) (p : Nat) (A : Int) (hp : p < s.length) (hA : A ≤ 0) :
    chooseLen s (p : Int) A = some A := by
  unfold chooseLen
  have hmin : min ((s.length : Int) - (p : Int)) A = A := by
    rw [min_def]; split <;> omega
  simp only [hmin, if_true]
  by_cases hneg : A < 0
  · rw [if_pos hneg, Option.map_some', if_pos hA]
  · have h0 : A = 0 := by omega
    subst h0
    have e : ((0 : Int).toNat + 1) = 0 + 1 := rfl
    rw [if_neg hneg, e, trimLoop_succ s p 0 (by omega)]
    by_cases hb : isBreakChar (chr s (p + 0)) = true
    · rw [if_pos hb]; rfl
    · rw [if_neg hb]; rfl

/-- The iteration that follows a choice of `L ≥ 1` characters inside the text:
the newline scan fixes the length `n` of the text written, and the cursor
moves to `q + n`. -/
theorem spacePrintIter_of_chooseLen (s : Str) (off : Int) (p : Nat) (ind A : Int) (L : Nat)
    (hp : p < s.length) (hL : chooseLen s (p : Int) A = some (L : Int)) (hL1 : 1 ≤ L)
    (hpL : p + L ≤ s.length) :
    ∃ n q : Nat,
      spacePrintIter s off ⟨(p : Int), ind, A⟩ =
        some (⟨ind.toNat, (s.drop p).take n⟩,
              ⟨((q + n : Nat) : Int), if (p : Int) = 0 then ind + off else ind,
                if (p : Int) = 0 then A - off else A⟩) ∧
      1 ≤ n ∧ n ≤ L ∧ p ≤ q ∧ q + n ≤ s.length ∧
      newlineLoop s (p : Int) L 0 (L : Int) = some (n : Int) ∧ NewlineAt s p L n := by
  have hnl : ∃ n : Nat, newlineLoop s (p : Int) L ((0 : Nat) : Int) (L : Int) = some (n : Int) ∧
      1 ≤ n ∧ n ≤ L ∧ NewlineAt s p L n := by
    rcases newlineLoop_spec s p L hpL L 0 (by omega) with ⟨h1, h2⟩ | ⟨j, _, hj2, h1, h2, h3⟩
    · exact ⟨L, h1, hL1, le_refl _, Or.inl ⟨rfl, fun j hj => h2 j (Nat.zero_le _) hj⟩⟩
    · exact ⟨j + 1, h1, by omega, by omega,
        Or.inr ⟨j, hj2, rfl, h2, fun j1 hj1 => h3 j1 (Nat.zero_le _) hj1⟩⟩
  obtain ⟨n, hn, hn1, hn2, hnl⟩ := hnl
  obtain ⟨q, hq1, hq2, hq3, _, _⟩ :=
    skipSpaces_spec s n hn1 (s.length - p) p (by omega) (by omega)
  refine ⟨n, q, ?_, hn1, hn2, hq1, hq2, hn, hnl⟩
  have e1 : ((s.length : Int) - (p : Int)).toNat = s.length - p := by omega
  unfold spacePrintIter
  simp only [hL, Option.some_bind, Int.toNat_ofNat]
  rw [show (0 : Int) = ((0 : Nat) : Int) from rfl, hn]
  simp only [Option.some_bind, substr_nat s p n (le_of_lt hp), e1, hq3]
  congr 3

theorem take_succ_drop (s : Str) (p j : Nat) (h : p + j < s.length) :
    (s.drop p).take (j + 1) = (s.drop p).take j ++ [chr s (p + j)] := by
  rw [List.take_succ, List.getElem?_drop, List.getElem?_eq_getElem h, chr_eq_getElem s _ h]
  rfl

/-- C12, counterexample. In `ab<newline>cd` wrapped at width 4 the first
iteration is cut after the newline, and the content it writes is the three
characters `ab<newline>`: the newline character is part of the emitted
content, which is then followed by the line break of `std::endl`.  And in
`ab c<newline>d` wrapped at width 5 the candidate segment of
`min(remaining, allowedLen) = 5` characters holds a newline at offset 4, yet
the boundary search trims the segment to 2 characters first, the newline scan
runs over those only, and the iteration writes `ab`: the cut is at 2, not at
5. -/
theorem spacePrint_newline_counterexample :
    (chooseLen "ab\ncd".toList 0 4 = some 4 ∧
      spacePrintIter "ab\ncd".toList 0 ⟨0, 0, 4⟩ = some (⟨0, "ab\n".toList⟩, ⟨3, 0, 4⟩) ∧
      "ab\n".toList ≠ "ab".toList ∧ '\n' ∈ "ab\n".toList ∧
      spacePrint 5 [] "ab\ncd".toList 4 0 0 = some "ab\n\ncd\n".toList) ∧
    (min (("ab c\nd".toList.length : Int) - 0) 5 = 5 ∧ chr "ab c\nd".toList (0 + 4) = '\n' ∧
      (∀ k, k < 4 → chr "ab c\nd".toList (0 + k) ≠ '\n') ∧
      chooseLen "ab c\nd".toList 0 5 = some 2 ∧
      spacePrintIter "ab c\nd".toList 0 ⟨0, 0, 5⟩ = some (⟨0, "ab".toList⟩, ⟨3, 0, 5⟩) ∧
      spacePrintLines 6 "ab c\nd".toList 5 0 0 =
        some [⟨0, "ab".toList⟩, ⟨0, "c\n".toList⟩, ⟨0, "d".toList⟩]) := by
  decide

/-- C12, amended. Let the boundary search of an iteration of the wrapping loop
have chosen a segment of `L` characters from the cursor (the candidate of
`min(remaining, allowedLen)` characters, trimmed back to a break character or
reset to `allowedLen`).  Whenever that segment contains a newline, the first
one at offset `j` from the cursor, the newline scan forces the cut at `j + 1`
whatever `L` is, the content written for that line is the `j` characters
before the newline followed by the newline character itself, and the cursor
moves past the newline.  When that segment contains no newline (whatever
follows it in the candidate), the cut stays at `L` and the content written is
the segment. -/
theorem spacePrint_newline_cut (s : Str) (off ind A : Int) (p : Nat) (L : Int)
    (hp : p < s.length) (hL : chooseLen s (p : Int) A = some L) :
    (∀ j : Nat, (j : Int) < L → chr s (p + j) = '\n' →
      (∀ k, k < j → chr s (p + k) ≠ '\n') →
      newlineLoop s (p : Int) L.toNat 0 L = some ((j : Int) + 1) ∧
      ∃ st : WrapState,
        spacePrintIter s off ⟨(p : Int), ind, A⟩ =
          some (⟨ind.toNat, (s.drop p).take j ++ ['\n']⟩, st) ∧
        (p : Int) + (j : Int) + 1 ≤ st.start) ∧
    (0 < L → (∀ j : Nat, (j : Int) < L → chr s (p + j) ≠ '\n') →
      newlineLoop s (p : Int) L.toNat 0 L = some L ∧
      ∃ st : WrapState,
        spacePrintIter s off ⟨(p : Int), ind, A⟩ =
          some (⟨ind.toNat, (s.drop p).take L.toNat⟩, st) ∧
        (p : Int) + L ≤ st.start) := by
  have hmain : 0 < L → ∃ (A1 L1 n q : Nat), A = (A1 : Int) ∧ L = (L1 : Int) ∧
      spacePrintIter s off ⟨(p : Int), ind, (A1 : Int)⟩ =
        some (⟨ind.toNat, (s.drop p).take n⟩,
              ⟨((q + n : Nat) : Int), if (p : Int) = 0 then ind + off else ind,
                if (p : Int) = 0 then (A1 : Int) - off else (A1 : Int)⟩) ∧
      p ≤ q ∧ p + L1 ≤ s.length ∧
      newlineLoop s (p : Int) L1 0 (L1 : Int) = some (n : Int) ∧ NewlineAt s p L1 n := by
    intro hLpos
    have hApos : 0 < A := by
      by_contra hA
      rw [chooseLen_nonpos s p A hp (by omega)] at hL
      have := Option.some.inj hL
      omega
    lift A to Nat using le_of_lt hApos with A1
    obtain ⟨L1, hL1, h1, _, hpL, _⟩ := chooseLen_spec s p A1 hp (by omega)
    have hLL : L = (L1 : Int) := by
      rw [hL1] at hL
      exact (Option.some.inj hL).symm
    obtain ⟨n, q, hit, _, _, hq1, _, hloop, hNl⟩ :=
      spacePrintIter_of_chooseLen s off p ind (A1 : Int) L1 hp hL1 h1 hpL
    exact ⟨A1, L1, n, q, rfl, hLL, hit, hq1, hpL, hloop, hNl⟩
  constructor
  · intro j hj hnl hfirst
    obtain ⟨A1, L1, n, q, rfl, rfl, hit, hq1, hpL, hloop, hNl⟩ := hmain (by omega)
    have hjL : j < L1 := by omega
    have hn : n = j + 1 := by
      rcases hNl with ⟨_, h⟩ | ⟨j1, hj1, hn, hc, hf⟩
      · exact absurd hnl (h j hjL)
      · have : j1 = j := by
          rcases Nat.lt_trichotomy j1 j with h | h | h
          · exact absurd hc (hfirst j1 h)
          · exact h
          · exact absurd hnl (hf j h)
        omega
    subst hn
    constructor
    · rw [Int.toNat_ofNat, hloop]
      push_cast
      rfl
    · refine ⟨⟨((q + (j + 1) : Nat) : Int), if (p : Int) = 0 then ind + off else ind,
        if (p : Int) = 0 then (A1 : Int) - off else (A1 : Int)⟩, ?_, ?_⟩
      · rw [hit, take_succ_drop s p j (by omega), hnl]
      · simp only
        push_cast
        omega
  · intro hLpos hnone
    obtain ⟨A1, L1, n, q, rfl, rfl, hit, hq1, hpL, hloop, hNl⟩ := hmain hLpos
    have hn : n = L1 := by
      rcases hNl with ⟨h, _⟩ | ⟨j1, hj1, _, hc, _⟩
      · exact h
      · exact absurd hc (hnone j1 (by omega))
    subst hn
    constructor
    · rw [Int.toNat_ofNat, hloop]
    · refine ⟨⟨((q + n : Nat) : Int), if (p : Int) = 0 then ind + off else ind,
        if (p : Int) = 0 then (A1 : Int) - off else (A1 : Int)⟩, ?_, ?_⟩
      · rw [hit, Int.toNat_ofNat]
      · simp only
        push_cast
        omega

/-- Witness for the amended C12: the newline of `ab<newline>cd` at width 4,
inside the chosen segment, and the first iteration on `ab c<newline>d` at
width 5, whose chosen segment of 2 characters holds no newline. -/
theorem spacePrint_newline_cut_witness :
    (newlineLoop "ab\ncd".toList ((0 : Nat) : Int) (4 : Int).toNat 0 4 =
        some (((2 : Nat) : Int) + 1) ∧
      ∃ st : WrapState,
        spacePrintIter "ab\ncd".toList 0 ⟨((0 : Nat) : Int), 0, 4⟩ =
          some (⟨(0 : Int).toNat, ("ab\ncd".toList.drop 0).take 2 ++ ['\n']⟩, st) ∧
        ((0 : Nat) : Int) + ((2 : Nat) : Int) + 1 ≤ st.start) ∧
    (newlineLoop "ab c\nd".toList ((0 : Nat) : Int) (2 : Int).toNat 0 2 = some 2 ∧
      ∃ st : WrapState,
        spacePrintIter "ab c\nd".toList 0 ⟨((0 : Nat) : Int), 0, 5⟩ =
          some (⟨(0 : Int).toNat, ("ab c\nd".toList.drop 0).take (2 : Int).toNat⟩, st) ∧
        ((0 : Nat) : Int) + 2 ≤ st.start) :=
  ⟨(spacePrint_newline_cut "ab\ncd".toList 0 0 4 0 4 (by decide) (by decide)).1 2
      (by decide) (by decide) (by decide),
    (spacePrint_newline_cut "ab c\nd".toList 0 0 5 0 2 (by decide) (by decide)).2
      (by decide) (by
        intro j hj
        have h2 : j < 2 := by omega
        interval_cases j <;> decide)⟩

/-- C14. In an iteration with the cursor inside the text and `allowedLen = A > 0`
the boundary search chooses a length `L` with `1 ≤ L ≤ A`.  When at least `A`
characters remain, `L` is the largest `k` in `1 .. A` such that the character
at offset `k` from the cursor is a space, comma or pipe (the position one past
the end of the text reads as NUL, which is none of them), that character then
being the one right after the chosen segment; and `L = A` when there is no
such `k`.  When fewer than `A` characters remain, the whole remainder is
chosen without any search.  When the chosen segment holds no newline, the
content written is exactly the chosen segment, of length `L`. -/
theorem spacePrint_boundary_cut (s : Str) (off ind : Int) (p A : Nat)
    (hp : p < s.length) (hA : 0 < A) :
    ∃ L : Nat, chooseLen s (p : Int) (A : Int) = some (L : Int) ∧ 1 ≤ L ∧ L ≤ A ∧
      (p + A ≤ s.length →
        (∀ k, 1 ≤ k → k ≤ A → isBreakChar (chr s (p + k)) = true →
            (∀ j, k < j → j ≤ A → isBreakChar (chr s (p + j)) = false) →
            L = k ∧ s.drop p = (s.drop p).take k ++ chr s (p + k) :: s.drop (p + k + 1)) ∧
        ((∀ k, 1 ≤ k → k ≤ A → isBreakChar (chr s (p + k)) = false) → L = A)) ∧
      (s.length < p + A → L = s.length - p ∧ (s.drop p).take L = s.drop p) ∧
      ((∀ j, j < L → chr s (p + j) ≠ '\n') →
        ((s.drop p).take L).length = L ∧
        ∃ st : WrapState, spacePrintIter s off ⟨(p : Int), ind, (A : Int)⟩ =
          some (⟨ind.toNat, (s.drop p).take L⟩, st)) := by
  obtain ⟨L, hL, hL1, hLA, hpL, hcut⟩ := chooseLen_spec s p A hp hA
  refine ⟨L, hL, hL1, hLA, ?_, ?_, ?_⟩
  · intro hle
    rcases hcut with ⟨h1, _⟩ | ⟨_, ⟨hb, hmax⟩ | ⟨hLA1, hnone⟩⟩
    · omega
    · refine ⟨?_, ?_⟩
      · intro k hk1 hkA hkb hkmax
        have hLk : L = k := by
          rcases Nat.lt_trichotomy L k with h | h | h
          · have := hmax k h hkA
            rw [hkb] at this
            exact absurd this (by decide)
          · exact h
          · have := hkmax L h hLA
            rw [hb] at this
            exact absurd this (by decide)
        refine ⟨hLk, ?_⟩
        have hlt : p + k < s.length := by
          rcases Nat.lt_or_ge (p + k) s.length with h | h
          · exact h
          · exfalso
            have h0 : chr s (p + k) = Char.ofNat 0 := chr_of_le s _ h
            rw [h0] at hkb
            exact absurd hkb (by decide)
        exact drop_split s p k hlt
      · intro hno
        have := hno L hL1 hLA
        rw [hb] at this
        exact absurd this (by decide)
    · refine ⟨?_, fun _ => hLA1⟩
      intro k hk1 hkA hkb _
      have := hnone k hk1 hkA
      rw [hkb] at this
      exact absurd this (by decide)
  · intro hlt
    rcases hcut with ⟨_, h2⟩ | ⟨h1, _⟩
    · refine ⟨by omega, ?_⟩
      apply List.take_of_length_le
      simp only [List.length_drop]; omega
    · omega
  · intro hnonl
    obtain ⟨n, q, hit, _, _, _, _, _, hNl⟩ :=
      spacePrintIter_of_chooseLen s off p ind (A : Int) L hp hL hL1 hpL
    have hn : n = L := by
      rcases hNl with ⟨h, _⟩ | ⟨j, hj, _, hc, _⟩
      · exact h
      · exact absurd hc (hnonl j hj)
    subst hn
    refine ⟨?_, _, hit⟩
    simp only [List.length_take, List.length_drop]
    omega

/-- Witness for C14: the first iteration on `ab,cd efgh` with `allowedLen = 7`,
which is cut at the space at offset 5. -/
theorem spacePrint_boundary_cut_witness :
    ∃ L : Nat, chooseLen "ab,cd efgh".toList ((0 : Nat) : Int) ((7 : Nat) : Int) = some (L : Int) ∧
      1 ≤ L ∧ L ≤ 7 ∧
      (0 + 7 ≤ "ab,cd efgh".toList.length →
        (∀ k, 1 ≤ k → k ≤ 7 → isBreakChar (chr "ab,cd efgh".toList (0 + k)) = true →
            (∀ j, k < j → j ≤ 7 → isBreakChar (chr "ab,cd efgh".toList (0 + j)) = false) →
            L = k ∧ "ab,cd efgh".toList.drop 0 =
              ("ab,cd efgh".toList.drop 0).take k ++
                chr "ab,cd efgh".toList (0 + k) :: "ab,cd efgh".toList.drop (0 + k + 1)) ∧
        ((∀ k, 1 ≤ k → k ≤ 7 → isBreakChar (chr "ab,cd efgh".toList (0 + k)) = false) →
          L = 7)) ∧
      ("ab,cd efgh".toList.length < 0 + 7 →
        L = "ab,cd efgh".toList.length - 0 ∧
          ("ab,cd efgh".toList.drop 0).take L = "ab,cd efgh".toList.drop 0) ∧
      ((∀ j, j < L → chr "ab,cd efgh".toList (0 + j) ≠ '\n') →
        (("ab,cd efgh".toList.drop 0).take L).length = L ∧
        ∃ st : WrapState, spacePrintIter "ab,cd efgh".toList 0 ⟨((0 : Nat) : Int), 0, ((7 : Nat) : Int)⟩ =
          some (⟨(0 : Int).toNat, ("ab,cd efgh".toList.drop 0).take L⟩, st)) :=
  spacePrint_boundary_cut "ab,cd efgh".toList 0 0 0 7 (by decide) (by decide)

/-! ## What the lines retain of the text -/

theorem drop_spaces (s : Str) :
    ∀ (d a : Nat), a + d ≤ s.length → (∀ j, a ≤ j → j < a + d → chr s j = ' ') →
      s.drop a = List.replicate d ' ' ++ s.drop (a + d) := by
  intro d
  induction d with
  | zero => intro a _ _; simp
  | succ d ih =>
    intro a hle hsp
    have ha : a < s.length := by omega
    have h1 := ih (a + 1) (by omega) (fun j hj1 hj2 => hsp j (by omega) (by omega))
    rw [List.drop_eq_getElem_cons ha, ← chr_eq_getElem s a ha, hsp a (le_refl _) (by omega), h1]
    rw [show a + 1 + d = a + (d + 1) by omega]
    rfl

/-- The text from the cursor on is the content written, the run of spaces
skipped, and the text from the new cursor on. -/
theorem IterFacts.split {s : Str} {p A L n q : Nat} (hf : IterFacts s p A L n q) :
    s.drop p = (s.drop p).take n ++ (List.replicate (q - p) ' ' ++ s.drop (q + n)) := by
  obtain ⟨_, _, _, _, hq1, hq2, hskip, _⟩ := hf
  have h1 : s.drop (p + n) = List.replicate (q - p) ' ' ++ s.drop (p + n + (q - p)) :=
    drop_spaces s (q - p) (p + n) (by omega) (fun j hj1 hj2 => by
      have := hskip (j - n) (by omega) (by omega)
      rwa [Nat.sub_add_cancel (by omega)] at this)
  rw [show p + n + (q - p) = q + n by omega] at h1
  rw [← h1, ← List.drop_drop, List.take_append_drop]

theorem filter_replicate_space (k : Nat) :
    (List.replicate k ' ').filter (fun c => c != ' ') = [] := by
  induction k with
  | zero => rfl
  | succ k ih => simp [List.replicate_succ, List.filter_cons, ih]

theorem Wrapped.filter_spaces {s : Str} {ind A p : Nat} {ls : List Line}
    (h : Wrapped s ind A p ls) :
    ((ls.map Line.content).flatten).filter (fun c => c != ' ') =
      (s.drop p).filter (fun c => c != ' ') := by
  induction h with
  | done p hp => simp [List.drop_eq_nil_of_le hp]
  | step p L n q ls hp hf _ ih =>
    have hs := hf.split
    conv_rhs => rw [hs]
    simp only [List.map_cons, List.flatten_cons, List.filter_append, ih,
      filter_replicate_space, List.nil_append]

/-- C18. For `maxWidth > 0`, `baseIndent ≥ 0`, `firstLineOffset ≥ 0` and
`baseIndent + firstLineOffset < maxWidth`, the contents of the lines emitted by
`spacePrint` (given fuel for `length s` iterations), concatenated, differ from
the text only by deleted spaces: erasing the spaces of the concatenation gives
the text with its spaces erased, so every character that is not a space is
kept, once and in order. -/
theorem spacePrint_keeps_nonspaces (s : Str) (maxWidth baseIndent firstLineOffset : Int)
    (fuel : Nat) (hmw : 0 < maxWidth) (hbi : 0 ≤ baseIndent) (hoff : 0 ≤ firstLineOffset)
    (hlt : baseIndent + firstLineOffset < maxWidth) (hfuel : s.length ≤ fuel) :
    ∃ ls, spacePrintLines fuel s maxWidth baseIndent firstLineOffset = some ls ∧
      ((ls.map Line.content).flatten).filter (fun c => c != ' ') =
        s.filter (fun c => c != ' ') := by
  lift maxWidth to Nat using le_of_lt hmw with mw
  lift baseIndent to Nat using hbi with ind
  lift firstLineOffset to Nat using hoff with off
  have hw : ind + off < mw := by omega
  by_cases hlong : mw < s.length + ind
  · obtain ⟨L, n, q, ls, hls, hf, hwr⟩ := spacePrintLines_wrap s mw ind off hlong hw fuel hfuel
    refine ⟨_, hls, ?_⟩
    have hs := hf.split
    simp only [List.drop_zero] at hs
    have hr := hwr.filter_spaces
    conv_rhs => rw [hs]
    simp only [List.map_cons, List.flatten_cons, List.filter_append, hr,
      filter_replicate_space, List.nil_append]
  · have hcond : ¬ ((s.length : Int) + (ind : Int) > (mw : Int) ∧ (mw : Int) > 0) := by omega
    exact ⟨[⟨ind, s⟩], by rw [spacePrintLines_fits _ _ _ _ _ hcond]; simp, by simp⟩

/-- Witness for C18: a text cut at a comma and at a run of two spaces. -/
theorem spacePrint_keeps_nonspaces_witness :
    ∃ ls, spacePrintLines 11 "ab,cd  ef,g".toList 3 0 0 = some ls ∧
      ((ls.map Line.content).flatten).filter (fun c => c != ' ') =
        "ab,cd  ef,g".toList.filter (fun c => c != ' ') :=
  spacePrint_keeps_nonspaces "ab,cd  ef,g".toList 3 0 0 11 (by decide) (by decide) (by decide)
    (by decide) (by decide)

/-! ## Texts without a break character -/

/-- One iteration on a text without space, comma, pipe or newline: it writes
`allowedLen` characters, or the remainder when that is shorter, and skips
nothing. -/
theorem iter_unbreakable (s : Str) (p A L n q : Nat)
    (hs : ∀ c ∈ s, c ≠ ' ' ∧ c ≠ ',' ∧ c ≠ '|' ∧ c ≠ '\n') (hf : IterFacts s p A L n q) :
    q = p ∧ ((n = A ∧ p + A ≤ s.length) ∨ (n < A ∧ p + n = s.length)) := by
  obtain ⟨hn1, hn2, hL, hpL, hq1, hq2, hskip, _, hcut, hnl⟩ := hf
  have hplain : ∀ c ∈ s, c ≠ ',' ∧ c ≠ '|' ∧ c ≠ '\n' := fun c hc => (hs c hc).2
  have hnsp : ∀ i, chr s i ≠ ' ' := by
    intro i
    rcases Nat.lt_or_ge i s.length with h | h
    · exact (hs _ (chr_mem s i h)).1
    · exact chr_ne_space_of_le s i h
  have hnL : n = L := by
    rcases hnl with ⟨h, _⟩ | ⟨j, hj, _, hj2, _⟩
    · exact h
    · exact absurd hj2 (hs _ (chr_mem s (p + j) (by omega))).2.2.2
  subst hnL
  constructor
  · by_contra hne
    exact hnsp (p + n) (hskip p (le_refl _) (by omega))
  · rcases hcut with ⟨h1, h2⟩ | ⟨h1, ⟨hb, _⟩ | ⟨hLA, _⟩⟩
    · exact Or.inr ⟨by omega, h2⟩
    · exact absurd (isBreakChar_plain s (p + n) hplain hb).2 (hnsp _)
    · exact Or.inl ⟨hLA, h1⟩

theorem take_min_drop (s : Str) (p A n : Nat)
    (h : (n = A ∧ p + A ≤ s.length) ∨ (n < A ∧ p + n = s.length)) :
    (s.drop p).take n = (s.drop p).take A := by
  rcases h with ⟨h, _⟩ | ⟨h1, h2⟩
  · rw [h]
  · rw [List.take_of_length_le (by simp only [List.length_drop]; omega),
      List.take_of_length_le (by simp only [List.length_drop]; omega)]

/-- The lines of a text without break characters are its consecutive chunks
of `A` characters. -/
theorem Wrapped.chunks {s : Str} {ind A p : Nat} {ls : List Line}
    (h : Wrapped s ind A p ls) (hs : ∀ c ∈ s, c ≠ ' ' ∧ c ≠ ',' ∧ c ≠ '|' ∧ c ≠ '\n') :
    (∀ (i : Nat) (hi : i < ls.length),
      p + i * A < s.length ∧ (ls[i]).content = (s.drop (p + i * A)).take A) ∧
    (ls.map Line.content).flatten = s.drop p := by
  induction h with
  | done p hp => exact ⟨fun i hi => by simp at hi, by simp [List.drop_eq_nil_of_le hp]⟩
  | step p L n q ls hp hf hw ih =>
    obtain ⟨hq, hn⟩ := iter_unbreakable s p A L n q hs hf
    subst hq
    obtain ⟨ih1, ih2⟩ := ih
    constructor
    · intro i hi
      cases i with
      | zero =>
        simp only [Nat.zero_mul, Nat.add_zero, List.getElem_cons_zero]
        exact ⟨hp, take_min_drop s q A n hn⟩
      | succ i =>
        have hi1 : i < ls.length := by simpa using hi
        rcases hn with ⟨hnA, _⟩ | ⟨_, hend⟩
        · subst hnA
          obtain ⟨h1, h2⟩ := ih1 i hi1
          have e : q + (i + 1) * n = q + n + i * n := by ring
          simp only [List.getElem_cons_succ]
          rw [e]
          exact ⟨h1, h2⟩
        · have : ls = [] := hw.eq_nil (by omega)
          subst this
          simp at hi1
    · simp only [List.map_cons, List.flatten_cons, ih2]
      rw [← List.drop_drop, List.take_append_drop]

/-- C16. Let the text hold no space, comma, pipe or newline and be longer than
`maxWidth - baseIndent`, with `maxWidth > 0`, `baseIndent ≥ 0`,
`firstLineOffset ≥ 0` and `baseIndent + firstLineOffset < maxWidth`.  Then the
contents of the lines `spacePrint` emits are the consecutive chunks of the
text: the first `maxWidth - baseIndent` characters, then chunks of
`maxWidth - baseIndent - firstLineOffset` characters each starting inside the
text (so only the last can be shorter); and their concatenation is the text. -/
theorem spacePrint_hard_split (s : Str) (maxWidth baseIndent firstLineOffset : Int)
    (fuel : Nat) (hmw : 0 < maxWidth) (hbi : 0 ≤ baseIndent) (hoff : 0 ≤ firstLineOffset)
    (hlt : baseIndent + firstLineOffset < maxWidth)
    (hs : ∀ c ∈ s, c ≠ ' ' ∧ c ≠ ',' ∧ c ≠ '|' ∧ c ≠ '\n')
    (hlong : maxWidth - baseIndent < (s.length : Int)) (hfuel : s.length ≤ fuel) :
    ∃ ls, spacePrintLines fuel s maxWidth baseIndent firstLineOffset = some ls ∧
      (∀ (i : Nat) (hi : i < ls.length),
        (ls[i]).content =
          if i = 0 then s.take (maxWidth - baseIndent).toNat
          else (s.drop ((maxWidth - baseIndent).toNat +
            (i - 1) * (maxWidth - baseIndent - firstLineOffset).toNat)).take
              (maxWidth - baseIndent - firstLineOffset).toNat) ∧
      (∀ (i : Nat), i < ls.length →
        (maxWidth - baseIndent).toNat + (i - 1) * (maxWidth - baseIndent - firstLineOffset).toNat
          < s.length) ∧
      (ls.map Line.content).flatten = s := by
  lift maxWidth to Nat using le_of_lt hmw with mw
  lift baseIndent to Nat using hbi with ind
  lift firstLineOffset to Nat using hoff with off
  have hw : ind + off < mw := by omega
  have e0 : ((mw : Int) - (ind : Int)).toNat = mw - ind := by omega
  have e1 : ((mw : Int) - (ind : Int) - (off : Int)).toNat = mw - ind - off := by omega
  rw [e0, e1]
  obtain ⟨L, n, q, ls, hls, hf, hwr⟩ :=
    spacePrintLines_wrap s mw ind off (by omega) hw fuel hfuel
  obtain ⟨hq, hn⟩ := iter_unbreakable s 0 (mw - ind) L n q hs hf
  have hnA : n = mw - ind := by
    rcases hn with ⟨h, _⟩ | ⟨h1, h2⟩
    · exact h
    · omega
  subst hq
  rw [Nat.zero_add] at hwr
  obtain ⟨hc1, hc2⟩ := hwr.chunks hs
  refine ⟨_, hls, ?_, ?_, ?_⟩
  · intro i hi
    cases i with
    | zero => simp [hnA]
    | succ i =>
      have hi1 : i < ls.length := by simpa using hi
      simp only [List.getElem_cons_succ, Nat.succ_ne_zero, if_false, Nat.add_sub_cancel]
      rw [(hc1 i hi1).2, hnA]
  · intro i hi
    cases i with
    | zero => simp only [Nat.zero_sub, Nat.zero_mul, Nat.add_zero]; omega
    | succ i =>
      have hi1 : i < ls.length := by simpa using hi
      have := (hc1 i hi1).1
      rw [hnA] at this
      simpa using this
  · simp only [List.map_cons, List.flatten_cons, hc2]
    exact List.take_append_drop n s

/-- Witness for C16: nine letters at width 5, indent 1, offset 2. -/
theorem spacePrint_hard_split_witness :
    ∃ ls, spacePrintLines 9 "abcdefghi".toList 5 1 2 = some ls ∧
      (∀ (i : Nat) (hi : i < ls.length),
        (ls[i]).content =
          if i = 0 then "abcdefghi".toList.take ((5 : Int) - 1).toNat
          else ("abcdefghi".toList.drop (((5 : Int) - 1).toNat +
            (i - 1) * ((5 : Int) - 1 - 2).toNat)).take ((5 : Int) - 1 - 2).toNat) ∧
      (∀ (i : Nat), i < ls.length →
        ((5 : Int) - 1).toNat + (i - 1) * ((5 : Int) - 1 - 2).toNat
          < "abcdefghi".toList.length) ∧
      (ls.map Line.content).flatten = "abcdefghi".toList :=
  spacePrint_hard_split "abcdefghi".toList 5 1 2 9 (by decide) (by decide) (by decide)
    (by decide) (by decide) (by decide) (by decide)

/-! ## Further claims about `shortUsage` and `longUsage` -/

/-- C17, counterexample. A group whose only (hence last) member is the second
sample argument: after the member's block, which ends its own line, `longUsage`
writes two line breaks, that is two blank lines and not one. -/
theorem longUsage_last_member_counterexample :
    longUsageArg 94 [] sampleB =
      some "  -b,  --beta                        second alternative\n".toList ∧
    longUsageGroup 94 [sampleB] [] =
      some "  -b,  --beta                        second alternative\n\n\n".toList ∧
    longUsageGroup 94 [sampleB] [] ≠
      some "  -b,  --beta                        second alternative\n\n".toList := by
  decide

/-- C17, amended. For every member of an exclusive group (given fuel for its
composed line) `longUsage` writes the wrapped description block and one blank
line; then, if the member is not the last of its group, the separator line
`-- OR --` at indent 9 and one blank line, and if it is the last, a second
blank line.  So the last member of a group is followed by exactly two blank
lines. -/
theorem longUsage_member_layout (fuel : Nat) (a : Arg) (rest : List Arg)
    (hfuel : (descLine a).length ≤ fuel) :
    ∃ b : Str, (∀ os, longUsageArg fuel os a = some (os ++ b)) ∧
      (∀ os, longUsageGroup fuel (a :: rest) os =
        longUsageGroup fuel rest
          (os ++ b ++ ['\n'] ++
            (if rest = [] then ['\n']
             else List.replicate 9 ' ' ++ "-- OR --".toList ++ ['\n'] ++ ['\n']))) ∧
      ∀ os, longUsageGroup fuel [a] os = some (os ++ b ++ ['\n'] ++ ['\n']) := by
  obtain ⟨b, hb⟩ := longUsageArg_total fuel a hfuel
  refine ⟨b, hb, ?_, ?_⟩
  · intro os
    by_cases hrest : rest = []
    · subst hrest
      simp [longUsageGroup, hb]
    · rw [longUsageGroup, hb]
      simp only [Option.some_bind, if_pos hrest, if_neg hrest, spacePrint_separator]
      simp [orSeparator]
  · intro os
    simp [longUsageGroup, hb]

/-- Witness for the amended C17: the first sample argument followed by the
second. -/
theorem longUsage_member_layout_witness :
    ∃ b : Str, (∀ os, longUsageArg 94 os sampleA = some (os ++ b)) ∧
      (∀ os, longUsageGroup 94 (sampleA :: [sampleB]) os =
        longUsageGroup 94 [sampleB]
          (os ++ b ++ ['\n'] ++
            (if [sampleB] = [] then ['\n']
             else List.replicate 9 ' ' ++ "-- OR --".toList ++ ['\n'] ++ ['\n']))) ∧
      ∀ os, longUsageGroup 94 [sampleA] os = some (os ++ b ++ ['\n'] ++ ['\n']) :=
  longUsage_member_layout 94 sampleA [sampleB] (by decide)

/-- C20. For an exclusive group with no members the first loop of `shortUsage`
appends exactly a space and a closing brace: the opening brace just written is
the last character and is overwritten.  The composed string thus gains a
closing brace and no opening brace, wherever the empty group stands in the
list of groups; with the empty group as the only group the synopsis is the
program path, `" [OPTIONS] "`, the closing brace and the standalone
arguments. -/
theorem shortUsage_empty_group (s : Str) (xs ys : List (List Arg)) (c : CmdLineInterface) :
    setLast (shortUsageMembers (s ++ " \x7b".toList) []) = s ++ " \x7d".toList ∧
    shortUsageXor s [[]] = s ++ " \x7d".toList ∧
    shortUsageXor s (xs ++ [] :: ys) = shortUsageXor (shortUsageXor s xs ++ " \x7d".toList) ys ∧
    List.count '{' (shortUsageXor s [[]]) = List.count '{' s ∧
    List.count '}' (shortUsageXor s [[]]) = List.count '}' s + 1 ∧
    (c.xorList = [[]] →
      shortUsageText c =
        c.programPath ++ " [OPTIONS] \x7d".toList ++
          ((c.argList.filter fun a => !a.ignoreable).map fun a =>
            " ".toList ++ a.shortID).flatten) := by
  have h1 : setLast (shortUsageMembers (s ++ " \x7b".toList) []) = s ++ " \x7d".toList := by
    have e : s ++ " \x7b".toList = (s ++ [' ']) ++ ['{'] := by simp
    rw [shortUsageMembers, List.foldl_nil, e, setLast_append_singleton]
    simp
  have h2 : ∀ t : Str, shortUsageXor t [[]] = t ++ " \x7d".toList := by
    intro t
    have e : t ++ " \x7b".toList = (t ++ [' ']) ++ ['{'] := by simp
    rw [shortUsageXor, List.foldl_cons, List.foldl_nil, shortUsageMembers, List.foldl_nil, e,
      setLast_append_singleton]
    simp
  refine ⟨h1, h2 s, ?_, ?_, ?_, ?_⟩
  · have e : xs ++ [] :: ys = xs ++ ([[]] ++ ys) := rfl
    unfold shortUsageXor at h2 ⊢
    rw [e, List.foldl_append, List.foldl_append, h2]
  · rw [h2, List.count_append]
    have : List.count '{' " \x7d".toList = 0 := by decide
    omega
  · rw [h2, List.count_append]
    have : List.count '}' " \x7d".toList = 1 := by decide
    omega
  · intro hx
    unfold shortUsageText
    rw [shortUsageRest_eq, hx, h2]
    have hf : (fun a => !xorContains [[]] a && !a.ignoreable) = fun (a : Arg) => !a.ignoreable := by
      funext a
      simp [xorContains]
    rw [hf]
    simp

/-! ## The loop with `allowedLen = 0` -/

/-- An iteration with `allowedLen = 0` at a character that is not a space
writes an empty line and leaves the cursor where it is. -/
theorem spacePrintIter_zero (s : Str) (off ind : Int) (p : Nat) (hp : p < s.length)
    (hc : chr s p ≠ ' ') :
    spacePrintIter s off ⟨(p : Int), ind, 0⟩ =
      some (⟨ind.toNat, []⟩,
        ⟨(p : Int), if (p : Int) = 0 then ind + off else ind,
          if (p : Int) = 0 then 0 - off else 0⟩) := by
  obtain ⟨k, hk⟩ : ∃ k, s.length - p = k + 1 := ⟨s.length - p - 1, by omega⟩
  have e1 : ((s.length : Int) - (p : Int)).toNat = k + 1 := by omega
  have e2 : (0 : Int) + (p : Int) = ((p : Nat) : Int) := by omega
  have hsub : substr s (p : Int) 0 = some [] := by
    have := substr_nat s p 0 (le_of_lt hp)
    simpa using this
  have hskip : skipSpaces s 0 (k + 1) (p : Int) = some (p : Int) := by
    rw [skipSpaces, e2, strAt_nat s p (le_of_lt hp)]
    simp only
    rw [if_neg (fun h => hc h.1)]
  unfold spacePrintIter
  simp only [chooseLen_nonpos s p 0 hp (le_refl _), Option.some_bind, Int.toNat_zero,
    newlineLoop, hsub, e1, hskip, add_zero]

/-- A state that an iteration maps to itself is never left: the loop runs out
of any fuel. -/
theorem spacePrintLoop_stuck (s : Str) (off : Int) (st : WrapState) (l : Line)
    (hlt : st.start < (s.length : Int)) (hit : spacePrintIter s off st = some (l, st)) :
    ∀ fuel, spacePrintLoop s off fuel st = none := by
  intro fuel
  induction fuel with
  | zero => rw [spacePrintLoop, if_pos hlt]
  | succ fuel ih =>
    rw [spacePrintLoop, if_pos hlt, hit]
    simp only [Option.some_bind, ih, Option.none_bind]

/-- C19, counterexample. With `allowedLen = 0` and text remaining the loop may
still move: on a text of two spaces (width 2, indent 2) the only iteration
skips both and the loop terminates after one empty line; on ` a` the
iteration moves the cursor from 0 to 1; and with a cursor at 0 and offset -1
the iteration changes indent and `allowedLen`, after which `ab` is wrapped to
the end. -/
theorem spacePrint_zero_width_counterexample :
    spacePrintLines 1 "  ".toList 2 2 0 = some [⟨2, []⟩] ∧
    spacePrintIter " a".toList 0 ⟨0, 2, 0⟩ = some (⟨2, []⟩, ⟨1, 2, 0⟩) ∧
    spacePrintIter "ab".toList (-1) ⟨0, 2, 0⟩ = some (⟨2, []⟩, ⟨0, 1, 1⟩) ∧
    spacePrintLines 3 "ab".toList 2 2 (-1) =
      some [⟨2, []⟩, ⟨1, "a".toList⟩, ⟨0, "b".toList⟩] := by
  decide

/-- C19, amended. Whenever `allowedLen` is exactly 0 while text remains, the
character under the cursor is not a space, and the cursor is past 0 or the
offset is 0, an iteration emits an empty-content line and leaves the cursor,
the indent and `allowedLen` unchanged, so the loop does not terminate on any
fuel.  This happens for `ab` with `maxWidth = 2`, `baseIndent = 2`,
`firstLineOffset = 0`, and, after its first line, for every text of 20
characters without space, comma or pipe with `maxWidth = 10`, `baseIndent = 0`,
`firstLineOffset = 10`. -/
theorem spacePrint_zero_width_stalls (s : Str) (off ind : Int) (p : Nat)
    (hp : p < s.length) (hc : chr s p ≠ ' ') (h0 : p ≠ 0 ∨ off = 0) :
    spacePrintIter s off ⟨(p : Int), ind, 0⟩ = some (⟨ind.toNat, []⟩, ⟨(p : Int), ind, 0⟩) ∧
    (∀ fuel, spacePrintLoop s off fuel ⟨(p : Int), ind, 0⟩ = none) ∧
    (∀ fuel, spacePrintLines fuel "ab".toList 2 2 0 = none) ∧
    (∀ t : Str, t.length = 20 → (∀ c ∈ t, isBreakChar c = false) →
      ∃ (l : Line) (st : WrapState),
        spacePrintIter t 10 ⟨0, 0, 10⟩ = some (l, st) ∧
        0 < st.start ∧ st.start < 20 ∧ st.indentSpaces = 10 ∧ st.allowedLen = 0 ∧
        spacePrintIter t 10 st = some (⟨10, []⟩, st) ∧
        ∀ fuel, spacePrintLines fuel t 10 0 10 = none) := by
  have hstall : ∀ (s : Str) (off ind : Int) (p : Nat), p < s.length → chr s p ≠ ' ' →
      (p ≠ 0 ∨ off = 0) →
      spacePrintIter s off ⟨(p : Int), ind, 0⟩ =
        some (⟨ind.toNat, []⟩, ⟨(p : Int), ind, 0⟩) := by
    intro s off ind p hp hc h0
    rw [spacePrintIter_zero s off ind p hp hc]
    by_cases hp0 : (p : Int) = 0
    · have hoff : off = 0 := by
        rcases h0 with h | h
        · omega
        · exact h
      simp [hp0, hoff]
    · simp [hp0]
  have hloop : ∀ (s : Str) (off ind : Int) (p : Nat), p < s.length → chr s p ≠ ' ' →
      (p ≠ 0 ∨ off = 0) → ∀ fuel, spacePrintLoop s off fuel ⟨(p : Int), ind, 0⟩ = none := by
    intro s off ind p hp hc h0
    exact spacePrintLoop_stuck s off _ _ (by simp only; omega) (hstall s off ind p hp hc h0)
  refine ⟨hstall s off ind p hp hc h0, hloop s off ind p hp hc h0, ?_, ?_⟩
  · intro fuel
    have hcond : (("ab".toList.length : Nat) : Int) + 2 > 2 ∧ (2 : Int) > 0 := by decide
    rw [spacePrintLines, if_pos hcond]
    exact hloop "ab".toList 0 2 0 (by decide) (by decide) (Or.inr rfl) fuel
  · intro t ht hnb
    have hnsp : ∀ i, chr t i ≠ ' ' := by
      intro i
      rcases Nat.lt_or_ge i t.length with h | h
      · intro hsp
        have := hnb _ (chr_mem t i h)
        rw [hsp] at this
        exact absurd this (by decide)
      · exact chr_ne_space_of_le t i h
    obtain ⟨L, n, q, hit, hn1, hn2, hL, _, hq1, hq2, hskip, _⟩ :=
      spacePrintIter_spec t 10 0 10 0 (by omega) (by omega)
    have hq : q = 0 := by
      by_contra hne
      exact hnsp (0 + n) (hskip 0 (le_refl _) (by omega))
    subst hq
    simp only [Nat.cast_zero, if_true, Nat.zero_add, zero_add, Nat.cast_ofNat, sub_self] at hit
    have hst := hstall t 10 10 n (by omega) (hnsp n) (Or.inl (by omega))
    refine ⟨_, _, hit, by simp only; omega, by simp only; omega, rfl, rfl, hst, ?_⟩
    intro fuel
    have hcond : ((t.length : Nat) : Int) + 0 > 10 ∧ (10 : Int) > 0 := by omega
    rw [spacePrintLines, if_pos hcond]
    cases fuel with
    | zero =>
      rw [spacePrintLoop, if_pos (by simp only; omega)]
    | succ fuel =>
      rw [spacePrintLoop, if_pos (by simp only; omega)]
      simp only [sub_zero, hit, Option.some_bind]
      rw [hloop t 10 10 n (by omega) (hnsp n) (Or.inl (by omega)) fuel]
      rfl

/-- Witness for the amended C19: `ab` at width 2 with indent 2. -/
theorem spacePrint_zero_width_stalls_witness :
    spacePrintIter "ab".toList 0 ⟨((0 : Nat) : Int), 2, 0⟩ =
      some (⟨(2 : Int).toNat, []⟩, ⟨((0 : Nat) : Int), 2, 0⟩) ∧
    ∀ fuel, spacePrintLoop "ab".toList 0 fuel ⟨((0 : Nat) : Int), 2, 0⟩ = none :=
  ⟨(spacePrint_zero_width_stalls "ab".toList 0 2 0 (by decide) (by decide) (Or.inr rfl)).1,
    (spacePrint_zero_width_stalls "ab".toList 0 2 0 (by decide) (by decide) (Or.inr rfl)).2.1⟩

end TCLAP
